import Mathlib

/-!
Verification of the adversarial snake decision engine.

Shallow embedding of the repository's core logic:
  * `game_settings.py`: grid constants, `GameConfig`, `Snake` state,
    `is_safe`, `Food.check_collision`, `Trap.check_collision`,
    `Snake.check_collision_with_other`;
  * `main.py`: `Game.check_collisions`;
  * `bot.py` (`UserBot`): `decide_move`, the immediate-fatality prefix of
    `_minimax_score`, `_flood_fill_area`, `_astar`.

Python `int` becomes `ℤ`, Python `float` fields that only ever hold exact
small values (`shield_timer`, the sentinel scores) become `ℚ`.  Grid cells
are pairs of integers.  Fallible code (the missing-attribute access in the
body-collision branch) returns `Except`.
-/

/-- A grid cell: an integer coordinate pair, as in the Python code where
positions are 2-element lists/tuples of ints. -/
abbrev Cell := ℤ × ℤ

/-- `GRID_WIDTH = WIDTH // GRID_SIZE = 800 // 20` (game_settings.py line 12). -/
def GRID_W : ℤ := 40

/-- `GRID_HEIGHT = HEIGHT // GRID_SIZE = 600 // 20` (game_settings.py line 13). -/
def GRID_H : ℤ := 30

/-- The bounds check `0 <= x < GRID_WIDTH and 0 <= y < GRID_HEIGHT` used
throughout the source. -/
def inBounds (c : Cell) : Bool :=
  decide (0 ≤ c.1) && decide (c.1 < GRID_W) && decide (0 ≤ c.2) && decide (c.2 < GRID_H)

/-- `Direction.opposite` (game_settings.py lines 61-63). -/
def oppositeDir (d : Cell) : Cell := (-d.1, -d.2)

/-- Cell addition: `[head[0] + m[0], head[1] + m[1]]`. -/
def cellAdd (a b : Cell) : Cell := (a.1 + b.1, a.2 + b.2)

/-- The move list `[Direction.RIGHT, Direction.LEFT, Direction.UP, Direction.DOWN]`
in source order; `UP = (0, -1)`, `DOWN = (0, 1)` (pygame's y axis points down). -/
def allMoves : List Cell := [(1, 0), (-1, 0), (0, -1), (0, 1)]

/-- The mutable state of one `Snake` object (game_settings.py lines 80-92),
restricted to the fields the verified code reads or writes.  `segments` is
head-first, as in the Python deque. -/
structure SnakeS where
  segments : List Cell
  direction : Cell
  score : ℤ
  shield_timer : ℚ
  alive : Bool
  grow : ℤ
  length : ℤ
deriving Repr, DecidableEq

/-- `GameConfig` (game_settings.py lines 37-52) with its default values.
The field `bodey_collision_penalty` is spelled exactly as in the source:
the dataclass really defines `bodey_collision_penalty`, not
`body_collision_penalty`. -/
structure GameConfig where
  tournament_mode : Bool := true
  max_rounds : ℤ := 3
  round_time : ℤ := 55
  trap_count : ℤ := 15
  trap_penalty : ℤ := 2
  trap_segment_penalty : ℕ := 3
  head_collision_penalty : ℤ := 4
  bodey_collision_penalty : ℤ := 3
  shield_duration : ℚ := 2
  collision_segment_penalty : ℕ := 2
  initial_food : ℤ := 35
  growth_per_food : ℤ := 2
  min_snake_length : ℕ := 5
  advantage_time : ℤ := 5
deriving Repr, DecidableEq

/-- Python attribute lookup on a `GameConfig` instance, for the integer
attributes.  It enumerates exactly the integer fields the dataclass
declares; looking up a name that is not a declared field returns `none`
(an `AttributeError` in Python).  In particular
`"body_collision_penalty"` is absent: the dataclass only declares
`"bodey_collision_penalty"`. -/
def configAttr (c : GameConfig) : String → Option ℤ
  | "max_rounds" => some c.max_rounds
  | "round_time" => some c.round_time
  | "trap_count" => some c.trap_count
  | "trap_penalty" => some c.trap_penalty
  | "trap_segment_penalty" => some (c.trap_segment_penalty : ℤ)
  | "head_collision_penalty" => some c.head_collision_penalty
  | "bodey_collision_penalty" => some c.bodey_collision_penalty
  | "collision_segment_penalty" => some (c.collision_segment_penalty : ℤ)
  | "initial_food" => some c.initial_food
  | "growth_per_food" => some c.growth_per_food
  | "min_snake_length" => some (c.min_snake_length : ℤ)
  | "advantage_time" => some c.advantage_time
  | _ => none

/-- `Snake.get_head_position` (game_settings.py lines 94-95): `segments[0][:]`.
On an empty deque Python would raise; the embedding totalises with the
default cell, and theorems whose meaning depends on the head carry a
nonempty-segments hypothesis. -/
def getHeadPosition (s : SnakeS) : Cell := s.segments.headI

/-- `is_safe` (game_settings.py lines 447-472): in bounds, not on any of the
snake's non-head segments, and (when an opponent object is passed) not on
any opponent segment.  The opponent's `alive` flag is not consulted. -/
def is_safe (snake : SnakeS) (new_head_pos : Cell) (other_snake : Option SnakeS) : Bool :=
  if ¬ (inBounds new_head_pos = true) then false
  else if new_head_pos ∈ snake.segments.tail then false
  else
    match other_snake with
    | some o => decide (new_head_pos ∉ o.segments)
    | none => true

/-- The specification's reading of `is_safe` (§4.2 of the spec), written
independently from the spec's words for the refinement claim C8. -/
def isSafeSpec (snake : SnakeS) (candidate : Cell) (opponent : Option SnakeS) : Prop :=
  (0 ≤ candidate.1 ∧ candidate.1 < GRID_W ∧ 0 ≤ candidate.2 ∧ candidate.2 < GRID_H) ∧
  (∀ seg ∈ snake.segments.tail, candidate ≠ seg) ∧
  (∀ o, opponent = some o → ∀ seg ∈ o.segments, candidate ≠ seg)

/-! ## Collision model (game_settings.py lines 149-203, 308-314, 379-403; main.py lines 129-149) -/

/-- The Python exception that terminates the body-collision branch. -/
inductive PyErr where
  | attributeError
deriving Repr, DecidableEq

/-- One execution of the head-to-head penalty block (game_settings.py lines
158-189).  In the source this block is the body of
`for _ in range(collision_segment_penalty)`, but the `return True` on line
189 sits inside the loop, so the body runs exactly once. -/
def headToHeadOnce (cfg : GameConfig) (s other : SnakeS) : SnakeS × SnakeS :=
  let penalty := cfg.head_collision_penalty
  if s.score > other.score then
    let o1 := { other with score := max 0 (other.score - penalty) }
    let o2 := if o1.segments.length > cfg.min_snake_length then
        { o1 with segments := o1.segments.dropLast, length := o1.length - 1 } else o1
    (s, { o2 with shield_timer := cfg.shield_duration })
  else if other.score > s.score then
    let s1 := { s with score := max 0 (s.score - penalty) }
    let s2 := if s1.segments.length > cfg.min_snake_length then
        { s1 with segments := s1.segments.dropLast, length := s1.length - 1 } else s1
    ({ s2 with shield_timer := cfg.shield_duration }, other)
  else
    let s1 := { s with score := max 0 (s.score - penalty) }
    let o1 := { other with score := max 0 (other.score - penalty) }
    let s2 := if s1.segments.length > cfg.min_snake_length then
        { s1 with segments := s1.segments.dropLast, length := s1.length - 1 } else s1
    let o2 := if o1.segments.length > cfg.min_snake_length then
        { o1 with segments := o1.segments.dropLast, length := o1.length - 1 } else o1
    ({ s2 with shield_timer := cfg.shield_duration },
     { o2 with shield_timer := cfg.shield_duration })

/-- The body-collision loop `for _ in range(collision_segment_penalty)`
(game_settings.py lines 194-200).  Each iteration evaluates
`self.config.body_collision_penalty`, an attribute the dataclass does not
declare (only `bodey_collision_penalty` exists), so the first iteration
raises `AttributeError`. -/
def bodyCollisionLoop (cfg : GameConfig) : ℕ → SnakeS → Except PyErr SnakeS
  | 0, s => .ok s
  | n + 1, s =>
    match configAttr cfg "body_collision_penalty" with
    | none => .error .attributeError
    | some p =>
      let s1 := { s with score := max 0 (s.score - p) }
      let s2 := if s1.segments.length > cfg.min_snake_length then
          { s1 with segments := s1.segments.dropLast, length := s1.length - 1 } else s1
      bodyCollisionLoop cfg n { s2 with shield_timer := cfg.shield_duration }

/-- `Snake.check_collision_with_other` (game_settings.py lines 149-203).
Returns the Python return value together with the updated states of both
snakes; the body-collision branch propagates the `AttributeError`.
When `collision_segment_penalty = 0` the head-to-head loop body never runs
and control falls through to the body-collision scan, exactly as in the
source. -/
def checkCollisionWithOther (cfg : GameConfig) (s other : SnakeS) :
    Except PyErr (Bool × SnakeS × SnakeS) :=
  if s.segments = [] ∨ other.segments = [] ∨ s.shield_timer > 0 ∨ other.shield_timer > 0 then
    .ok (false, s, other)
  else
    let head := s.segments.headI
    let other_head := other.segments.headI
    if head = other_head ∧ 0 < cfg.collision_segment_penalty then
      let p := headToHeadOnce cfg s other
      .ok (true, p.1, p.2)
    else if head ∈ other.segments.tail then
      match bodyCollisionLoop cfg cfg.collision_segment_penalty s with
      | .error e => .error e
      | .ok s' => .ok (true, s', other)
    else
      .ok (false, s, other)

/-- The food position set (`Food.positions`). -/
structure FoodS where
  positions : List Cell
deriving Repr, DecidableEq

/-- The trap position set (`Trap.positions`). -/
structure TrapS where
  positions : List Cell
deriving Repr, DecidableEq

/-- `Food.check_collision` (game_settings.py lines 308-314): remove the first
food cell equal to the head and report the hit. -/
def foodCheckCollision (head : Cell) (f : FoodS) : Bool × FoodS :=
  if head ∈ f.positions then (true, ⟨f.positions.erase head⟩) else (false, f)

/-- One iteration of the trap segment-penalty loop (game_settings.py lines
388-394): only acts while the length exceeds the minimum; pending growth is
consumed before a tail segment is popped; `length` is decremented either
way. -/
def trapSegStep (cfg : GameConfig) (s : SnakeS) : SnakeS :=
  if s.segments.length > cfg.min_snake_length then
    if s.grow > 0 then { s with grow := s.grow - 1, length := s.length - 1 }
    else { s with segments := s.segments.dropLast, length := s.length - 1 }
  else s

/-- The trap segment-penalty loop, `for _ in range(trap_segment_penalty)`. -/
def trapSegLoop (cfg : GameConfig) : ℕ → SnakeS → SnakeS
  | 0, s => s
  | n + 1, s => trapSegLoop cfg n (trapSegStep cfg s)

/-- `Trap.check_collision` (game_settings.py lines 379-403).  Note that the
source never consults `shield_timer`: a head on a trap cell always fires
the trap. -/
def trapCheckCollision (cfg : GameConfig) (s : SnakeS) (t : TrapS) : Bool × SnakeS × TrapS :=
  if getHeadPosition s ∈ t.positions then
    (true,
     { trapSegLoop cfg cfg.trap_segment_penalty
         { s with score := max 0 (s.score - cfg.trap_penalty) } with
       shield_timer := cfg.shield_duration },
     ⟨t.positions.erase (getHeadPosition s)⟩)
  else (false, s, t)

/-- The food stage of `Game.check_collisions` for one snake (main.py lines
132-139): `if snake.alive and food.check_collision(head): grow += growth;
score += 1`, with `check_collision` mutating the food set. -/
def foodPhase (cfg : GameConfig) (s : SnakeS) (food : FoodS) : SnakeS × FoodS :=
  if s.alive then
    let p := foodCheckCollision (getHeadPosition s) food
    (if p.1 then { s with grow := s.grow + cfg.growth_per_food, score := s.score + 1 }
     else s, p.2)
  else (s, food)

/-- The trap stage of `Game.check_collisions` for one snake (main.py lines
141-145). -/
def trapPhase (cfg : GameConfig) (s : SnakeS) (traps : TrapS) : SnakeS × TrapS :=
  if s.alive then
    let p := trapCheckCollision cfg s traps
    (p.2.1, p.2.2)
  else (s, traps)

/-- `Game.check_collisions` (main.py lines 129-149): food for both snakes,
traps for both snakes, then both directions of snake-vs-snake collision,
each stage seeing the state the previous stage produced. -/
def gameCheckCollisions (cfg : GameConfig) (s1 s2 : SnakeS) (food : FoodS) (traps : TrapS) :
    Except PyErr (SnakeS × SnakeS × FoodS × TrapS) :=
  let r1 := foodPhase cfg s1 food
  let r2 := foodPhase cfg s2 r1.2
  let t1 := trapPhase cfg r1.1 traps
  let t2 := trapPhase cfg r2.1 t1.2
  if t1.1.alive ∧ t2.1.alive then
    match checkCollisionWithOther cfg t1.1 t2.1 with
    | .error e => .error e
    | .ok (_, s1c, s2c) =>
      match checkCollisionWithOther cfg s2c s1c with
      | .error e => .error e
      | .ok (_, s2d, s1d) => .ok (s1d, s2d, r2.2, t2.2)
  else .ok (t1.1, t2.1, r2.2, t2.2)

/-! ## Decision engine (bot.py, class UserBot, lines 487-786) -/

/-- Oracles abstracting exactly the floating-point and randomized pieces of
`UserBot.decide_move`; every theorem below holds for all oracle values in
the stated ranges, hence in particular for the values the Python code
computes.

* `rest m`: the value the recursive minimax search (bot.py lines 681-779)
  returns for first move `m`; it is consulted only after the
  immediate-fatality checks of `_minimax_score` (lines 672-679) pass.  Its
  construction bottoms out in the heuristic blend, the trapped-player
  sentinel `-1e6` (line 738) and the opponent-capture sentinel `-1e5`
  (line 767), so the code's value always satisfies `-1e6 ≤ rest m`.
* `jitter m`: the sample `random.random() * self.randomness` added at line
  561; `randomness = 0.02`, so it lies in `[0, 1/50)`.
* `timeUp k`: whether the wall-clock budget test at line 558 fires before
  the k-th iteration of the scoring loop; an unlimited time budget is
  `timeUp k = false` for all `k`.
* `astarBest`: the path `best_af_path` selected by the A*-over-sorted-foods
  block (lines 530-545), which orders candidate foods by floating-point
  Euclidean distance.
* `pick`: the index drawn by `random.choice` at line 567. -/
structure SearchOracles where
  rest : Cell → ℚ
  jitter : Cell → ℚ
  timeUp : ℕ → Bool
  astarBest : List Cell
  pick : ℕ

/-- `trap positions if traps and traps.positions else []`. -/
def trapsPositions : Option TrapS → List Cell
  | some t => t.positions
  | none => []

/-- The immediate-fatality prefix of `UserBot._minimax_score` (bot.py lines
662-679): simulate the first move, return `-1e9` for a wall hit, a hit on
the post-move body (the vacated tail cell is not part of it), or a hit on
an alive opponent's body; return `-1e7` for a trap cell while the shield
is inactive; otherwise the value is the recursive search abstracted by
`o.rest`. -/
def minimaxScoreTop (o : SearchOracles) (snake : SnakeS) (opponent : Option SnakeS)
    (traps : Option TrapS) (m : Cell) : ℚ :=
  let myHead := getHeadPosition snake
  let oppBody : List Cell :=
    match opponent with
    | some op => if op.alive then op.segments else []
    | none => []
  let trapsSet := trapsPositions traps
  let nh := cellAdd myHead m
  let newBody := nh :: snake.segments.dropLast
  if ¬ inBounds nh = true then -(10 ^ 9)
  else if nh ∈ newBody.tail then -(10 ^ 9)
  else if oppBody ≠ [] ∧ nh ∈ oppBody then -(10 ^ 9)
  else if nh ∈ trapsSet ∧ snake.shield_timer ≤ 0 then -(10 ^ 7)
  else o.rest m

/-- `possible_moves = [m for m in all_moves if m != Direction.opposite(current_dir)]`
(bot.py lines 508-509). -/
def possibleMoves (snake : SnakeS) : List Cell :=
  allMoves.filter (fun m => m ≠ oppositeDir snake.direction)

/-- The candidate head for a move: `[head[0] + m[0], head[1] + m[1]]`. -/
def nhOf (snake : SnakeS) (m : Cell) : Cell := cellAdd (getHeadPosition snake) m

/-- The trap-avoidance test at bot.py line 515:
`traps and traps.positions and any(nh == [t[0], t[1]] for t in traps.positions)`. -/
def onTrapCell (snake : SnakeS) (traps : Option TrapS) (m : Cell) : Bool :=
  decide (trapsPositions traps ≠ []) && decide (nhOf snake m ∈ trapsPositions traps)

/-- The first `safe_moves` pass (bot.py lines 511-517): possible moves whose
head is `is_safe` and not on a trap cell. -/
def safeMoves1 (snake : SnakeS) (opponent : Option SnakeS) (traps : Option TrapS) : List Cell :=
  (possibleMoves snake).filter
    (fun m => is_safe snake (nhOf snake m) opponent && ! onTrapCell snake traps m)

/-- `safe_moves` after the in-bounds refill (bot.py lines 519-523): when the
first pass is empty, every possible move whose head is merely in bounds is
admitted, including moves onto snake bodies. -/
def safeMovesAll (snake : SnakeS) (opponent : Option SnakeS) (traps : Option TrapS) : List Cell :=
  if safeMoves1 snake opponent traps = [] then
    (possibleMoves snake).filter (fun m => inBounds (nhOf snake m))
  else safeMoves1 snake opponent traps

/-- The scoring loop (bot.py lines 555-564): walk `safe_moves`, break when
the time budget fires, score each move by `_minimax_score` plus jitter and
keep the first strict maximum.  `none` plays the role of
`best_score = -inf, best_move = None`. -/
def scoreLoopAux (o : SearchOracles) (snake : SnakeS) (opponent : Option SnakeS)
    (traps : Option TrapS) : List Cell → ℕ → Option (ℚ × Cell) → Option (ℚ × Cell)
  | [], _, best => best
  | m :: ms, k, best =>
    if o.timeUp k then best
    else
      let sc := minimaxScoreTop o snake opponent traps m + o.jitter m
      let best' :=
        match best with
        | none => some (sc, m)
        | some (bs, bm) => if sc > bs then some (sc, m) else some (bs, bm)
      scoreLoopAux o snake opponent traps ms (k + 1) best'

/-- `UserBot.decide_move` (bot.py lines 502-569).  Control skeleton is
translated statement by statement; the A*-with-food-sorting block only
feeds the candidate path, which is abstracted by `o.astarBest` (the
theorems hold for every path). -/
def decideMove (o : SearchOracles) (snake : SnakeS) (food : FoodS)
    (opponent : Option SnakeS) (traps : Option TrapS) : Cell :=
  let head := getHeadPosition snake
  let safeMoves := safeMovesAll snake opponent traps
  if safeMoves = [] then
    match possibleMoves snake with
    | [] => (1, 0)
    | p :: _ => p
  else
    let bestPath := if food.positions = [] then [] else o.astarBest
    let viaAstar : Option Cell :=
      if bestPath ≠ [] ∧ 1 < bestPath.length then
        let np := bestPath.getD 1 (0, 0)
        let mtf : Cell := (np.1 - head.1, np.2 - head.2)
        if mtf ∈ safeMoves ∧ minimaxScoreTop o snake opponent traps mtf > -(10 ^ 6)
        then some mtf else none
      else none
    match viaAstar with
    | some mv => mv
    | none =>
      match scoreLoopAux o snake opponent traps safeMoves 0 none with
      | some p => p.2
      | none => safeMoves.getD (o.pick % safeMoves.length) (1, 0)

/-- The neighbour order `[(1,0),(-1,0),(0,1),(0,-1)]` used by the bounded
searches (`_astar`, `_flood_fill_area`, `_available_moves_from`). -/
def scanDirs : List Cell := [(1, 0), (-1, 0), (0, 1), (0, -1)]

/-- The inner neighbour scan of `_flood_fill_area`'s loop body (bot.py lines
618-626): append unvisited, in-bounds, non-obstacle neighbours to the
queue and the visited set. -/
def floodExpand (obstacles : Finset Cell) (pos : Cell) :
    List Cell → List Cell × Finset Cell → List Cell × Finset Cell
  | [], st => st
  | d :: ds, (q, visited) =>
    let nt := cellAdd pos d
    if inBounds nt = true ∧ nt ∉ visited ∧ nt ∉ obstacles then
      floodExpand obstacles pos ds (q ++ [nt], insert nt visited)
    else
      floodExpand obstacles pos ds (q, visited)

/-- The loop of `UserBot._flood_fill_area` (bot.py lines 612-626): one fuel
unit per iteration (`nodes < max_nodes`), stop on empty queue, count each
dequeued cell. -/
def floodLoop (obstacles : Finset Cell) : ℕ → List Cell → Finset Cell → ℕ → ℕ
  | 0, _, _, count => count
  | _ + 1, [], _, count => count
  | fuel + 1, pos :: q, visited, count =>
    let st := floodExpand obstacles pos scanDirs (q, visited)
    floodLoop obstacles fuel st.1 st.2 (count + 1)

/-- `UserBot._flood_fill_area` (bot.py lines 604-627). -/
def floodFillArea (head_pos : Cell) (my_segments other_segments : List Cell)
    (max_nodes : ℕ) : ℕ :=
  let obstacles := my_segments.toFinset ∪ other_segments.toFinset
  floodLoop obstacles max_nodes [head_pos] {head_pos} 0

/-! ## A* pathfinder (bot.py, `UserBot._astar`, lines 571-602) -/

/-- A heap entry `(f, cell, path)`, exactly the tuples the source pushes on
`open_heap`. -/
abbrev AEntry := ℚ × Cell × List Cell

/-- Lexicographic comparison of cells, matching Python's comparison of
2-tuples of ints. -/
def cellLtB (a b : Cell) : Bool :=
  decide (a.1 < b.1) || (decide (a.1 = b.1) && decide (a.2 < b.2))

/-- Lexicographic comparison of paths, matching Python's comparison of lists
of coordinate pairs. -/
def pathLtB : List Cell → List Cell → Bool
  | [], [] => false
  | [], _ :: _ => true
  | _ :: _, [] => false
  | a :: as, b :: bs => cellLtB a b || (decide (a = b) && pathLtB as bs)

/-- Strict comparison of heap entries: Python compares the tuples
`(f, cell, path)` lexicographically, and `heapq.heappop` returns the least
tuple in the heap. -/
def entryLtB (a b : AEntry) : Bool :=
  decide (a.1 < b.1) ||
    (decide (a.1 = b.1) &&
      (cellLtB a.2.1 b.2.1 || (decide (a.2.1 = b.2.1) && pathLtB a.2.2 b.2.2)))

/-- Extract the least entry: scan keeping the current best and the other
entries.  `heapq` maintains its array invariant instead, but `heappop`
observably removes exactly a least tuple, which is what this computes. -/
def popMinAux (best : AEntry) (seen : List AEntry) : List AEntry → AEntry × List AEntry
  | [] => (best, seen.reverse)
  | e :: es =>
    if entryLtB e best then popMinAux e (best :: seen) es
    else popMinAux best (e :: seen) es

/-- `gscore` lookup: the dict is modelled as an association list where the
most recent binding shadows older ones. -/
def lookupG : List (Cell × ℕ) → Cell → Option ℕ
  | [], _ => none
  | (c, g) :: rest, x => if x = c then some g else lookupG rest x

/-- The neighbour expansion of `_astar`'s loop body (bot.py lines 590-601):
skip out-of-bounds and obstacle neighbours, and push an entry (recording
the new `gscore`) whenever the tentative cost strictly improves on the
recorded one or none is recorded. -/
def astarExpand (hfun : Cell → ℚ) (obstacles : Finset Cell) (current : Cell)
    (path : List Cell) :
    List Cell → List AEntry × List (Cell × ℕ) → List AEntry × List (Cell × ℕ)
  | [], st => st
  | d :: ds, (heap, gs) =>
    let nt := cellAdd current d
    if inBounds nt = true ∧ nt ∉ obstacles then
      let tentative := (lookupG gs current).getD 0 + 1
      let improves : Bool :=
        match lookupG gs nt with
        | some g => decide (tentative < g)
        | none => true
      if improves then
        astarExpand hfun obstacles current path ds
          (((tentative : ℚ) + hfun nt, nt, path ++ [nt]) :: heap, (nt, tentative) :: gs)
      else astarExpand hfun obstacles current path ds (heap, gs)
    else astarExpand hfun obstacles current path ds (heap, gs)

/-- The loop of `UserBot._astar` (bot.py lines 581-601): one fuel unit per
iteration, stop with `[]` on budget exhaustion or empty heap; pop the
least entry; return its path when it reaches the target; skip closed
cells; otherwise close the cell and expand its neighbours. -/
def astarLoop (target : Cell) (hfun : Cell → ℚ) (obstacles : Finset Cell) :
    ℕ → List AEntry → List (Cell × ℕ) → Finset Cell → List Cell
  | 0, _, _, _ => []
  | _ + 1, [], _, _ => []
  | fuel + 1, e :: heap, gs, closed =>
    let p := popMinAux e [] heap
    if p.1.2.1 = target then p.1.2.2
    else if p.1.2.1 ∈ closed then astarLoop target hfun obstacles fuel p.2 gs closed
    else
      let st := astarExpand hfun obstacles p.1.2.1 p.1.2.2 scanDirs (p.2, gs)
      astarLoop target hfun obstacles fuel st.1 st.2 (insert p.1.2.1 closed)

/-- `UserBot._astar` (bot.py lines 571-602).  The heuristic
`get_distance(·, target)` (floating-point Euclidean distance) is
abstracted by `hfun`; the A* theorem holds for every heuristic that, like
Euclidean distance, vanishes at the target and changes by at most 1 along
a grid edge. -/
def astar (hfun : Cell → ℚ) (start target : Cell) (obstacles : Finset Cell)
    (max_nodes : ℕ) : List Cell :=
  astarLoop target hfun obstacles max_nodes [(hfun start, start, [start])] [(start, 0)] ∅

/-! ## Snapshot threading (frame claim): decide_move as a state transformer -/

/-- A decision snapshot: the caller-owned objects passed to `decide_move`
(`self_snake`, `food`, optional `opponent`, optional `traps`). -/
structure Snapshot where
  snake : SnakeS
  food : FoodS
  opponent : Option SnakeS
  traps : Option TrapS
deriving Repr, DecidableEq

/-- A read of the snapshot: produces a value and the snapshot it found.
Every operation `decide_move` performs on the caller's objects is an
attribute read or a fresh copy (`get_head_position`'s `[:]` copy,
`list(...)` and `[seg[:] ...]` copies, set constructions, membership
tests), so each maps to one such read. -/
def sread (f : Snapshot → α) (st : Snapshot) : α × Snapshot := (f st, st)

/-- `UserBot._minimax_score` (bot.py lines 661-780) with the snapshot
threaded through the operations that touch it: the private copies taken
at lines 662-668 and the shield read at line 678.  The recursive search
(lines 681-779) operates only on those copies and locals, abstracted by
`o.rest` as in `minimaxScoreTop`. -/
def minimaxScoreST (o : SearchOracles) (m : Cell) (st : Snapshot) : ℚ × Snapshot :=
  let r1 := sread (fun s => getHeadPosition s.snake) st
  let r2 := sread (fun s => s.snake.segments) r1.2
  let r3 := sread (fun s => s.opponent) r2.2
  let r4 := sread (fun s => trapsPositions s.traps) r3.2
  let r5 := sread (fun s => s.snake.shield_timer) r4.2
  let oppBody : List Cell :=
    match r3.1 with
    | some op => if op.alive then op.segments else []
    | none => []
  let nh := cellAdd r1.1 m
  let newBody := nh :: r2.1.dropLast
  (if ¬ inBounds nh = true then -(10 ^ 9)
   else if nh ∈ newBody.tail then -(10 ^ 9)
   else if oppBody ≠ [] ∧ nh ∈ oppBody then -(10 ^ 9)
   else if nh ∈ r4.1 ∧ r5.1 ≤ 0 then -(10 ^ 7)
   else o.rest m, r5.2)

/-- The scoring loop of `decide_move` (bot.py lines 555-564) threading the
snapshot through each `_minimax_score` call. -/
def scoreLoopST (o : SearchOracles) : List Cell → ℕ → Option (ℚ × Cell) → Snapshot →
    Option (ℚ × Cell) × Snapshot
  | [], _, best, st => (best, st)
  | m :: ms, k, best, st =>
    if o.timeUp k then (best, st)
    else
      let r := minimaxScoreST o m st
      let sc := r.1 + o.jitter m
      let best' :=
        match best with
        | none => some (sc, m)
        | some (bs, bm) => if sc > bs then some (sc, m) else some (bs, bm)
      scoreLoopST o ms (k + 1) best' r.2

/-- `UserBot.decide_move` (bot.py lines 502-569) as a snapshot transformer:
the same control flow as `decideMove`, with the snapshot threaded through
every operation that touches the caller's objects.  No step writes to the
snapshot, which is what the frame theorem below records. -/
def decideMoveST (o : SearchOracles) (st : Snapshot) : Cell × Snapshot :=
  let r1 := sread (fun s => getHeadPosition s.snake) st
  let r4 := sread (fun s => safeMovesAll s.snake s.opponent s.traps) r1.2
  if r4.1 = [] then
    let r5 := sread (fun s => possibleMoves s.snake) r4.2
    (match r5.1 with | [] => (1, 0) | p :: _ => p, r5.2)
  else
    let r6 := sread (fun s => if s.food.positions = [] then [] else o.astarBest) r4.2
    if r6.1 ≠ [] ∧ 1 < r6.1.length then
      let np := r6.1.getD 1 (0, 0)
      let mtf : Cell := (np.1 - r1.1.1, np.2 - r1.1.2)
      if mtf ∈ r4.1 then
        let r7 := minimaxScoreST o mtf r6.2
        if r7.1 > -(10 ^ 6) then (mtf, r7.2)
        else
          let r8 := scoreLoopST o r4.1 0 none r7.2
          (match r8.1 with
           | some p => p.2
           | none => r4.1.getD (o.pick % r4.1.length) (1, 0), r8.2)
      else
        let r8 := scoreLoopST o r4.1 0 none r6.2
        (match r8.1 with
         | some p => p.2
         | none => r4.1.getD (o.pick % r4.1.length) (1, 0), r8.2)
    else
      let r8 := scoreLoopST o r4.1 0 none r6.2
      (match r8.1 with
       | some p => p.2
       | none => r4.1.getD (o.pick % r4.1.length) (1, 0), r8.2)

/-! ## Specification-side predicates -/

/-- Immediate fatality as `_minimax_score` checks it (bot.py lines 672-677):
the simulated head is out of bounds, lands on the post-move body — the
vacated tail cell is not part of it — or lands on an alive opponent's
body.  (`is_safe` is stricter: it also rejects the vacated tail cell and
the segments of a dead opponent.) -/
def simFatal (snake : SnakeS) (opponent : Option SnakeS) (m : Cell) : Prop :=
  ¬ inBounds (nhOf snake m) = true ∨
    nhOf snake m ∈ snake.segments.dropLast ∨
    (∃ op, opponent = some op ∧ op.alive = true ∧ nhOf snake m ∈ op.segments)

/-- Free cell for the flood fill and the pathfinder: in bounds and not an
obstacle. -/
def freeCell (obstacles : Finset Cell) (c : Cell) : Prop :=
  inBounds c = true ∧ c ∉ obstacles

/-- 4-adjacency on the grid: `b` is one step from `a`. -/
def adjCell (a b : Cell) : Prop := ∃ d ∈ scanDirs, b = cellAdd a d

/-- The region the flood fill is specified to count (spec §4.2): the start
cell together with every cell joined to it by a chain of free cells. -/
inductive Reaches (obstacles : Finset Cell) (start : Cell) : Cell → Prop
  | refl : Reaches obstacles start start
  | step {b c : Cell} : Reaches obstacles start b → adjCell b c →
      freeCell obstacles c → Reaches obstacles start c

/-- A walk of `n` grid steps from `a` to `b` whose every cell after the
first is in bounds and off the obstacle set — the walks A* explores. -/
inductive GridWalk (obstacles : Finset Cell) : Cell → Cell → ℕ → Prop
  | nil (a : Cell) : GridWalk obstacles a a 0
  | cons {a b c : Cell} {n : ℕ} : adjCell a b → freeCell obstacles b →
      GridWalk obstacles b c n → GridWalk obstacles a c (n + 1)

/-- Manhattan distance between two cells. -/
def manhattan (a b : Cell) : ℕ := (b.1 - a.1).natAbs + (b.2 - a.2).natAbs

/-! ## Concrete instances for counterexamples and witnesses -/

/-- C2 counterexample snake: head `(1,0)`, moving up, body hooking through
`(1,1)`, `(0,1)` to the tail `(0,0)` in the corner. -/
def cexSnake : SnakeS := ⟨[(1, 0), (1, 1), (0, 1), (0, 0)], (0, -1), 0, 0, true, 0, 4⟩

/-- C2 counterexample traps: the only `is_safe` move (right, onto `(2,0)`)
lands on a trap. -/
def cexTraps : TrapS := ⟨[(2, 0)]⟩

/-- C2 counterexample oracles: unlimited time budget, zero jitter, and
`rest = -1e6` — the exact value the source computes here, because after
moving onto the vacated tail `(0,0)` the snake has no available moves and
the maximizing ply returns `-1e6` (bot.py line 738). -/
def cexOracles : SearchOracles := ⟨fun _ => -(10 ^ 6), fun _ => 0, fun _ => false, [], 0⟩

/-- C3 counterexample: two snakes whose heads coincide this tick, equal
scores, shields inactive. -/
def c3s1 : SnakeS := ⟨[(10, 10), (9, 10), (8, 10), (7, 10), (6, 10)], (1, 0), 0, 0, true, 0, 5⟩

/-- Second snake for the C3 counterexample. -/
def c3s2 : SnakeS := ⟨[(10, 10), (11, 10), (12, 10), (13, 10), (14, 10)], (-1, 0), 0, 0, true, 0, 5⟩

/-- C4 failing input: equal scores, six segments each, shields inactive,
heads on the same cell. -/
def c4s1 : SnakeS :=
  ⟨[(10, 10), (9, 10), (8, 10), (7, 10), (6, 10), (5, 10)], (1, 0), 10, 0, true, 0, 6⟩

/-- Second snake for the C4 failing input. -/
def c4s2 : SnakeS :=
  ⟨[(10, 10), (11, 10), (12, 10), (13, 10), (14, 10), (15, 10)], (-1, 0), 10, 0, true, 0, 6⟩

/-- C5 counterexample: a snake with an active shield whose head sits on a
trap cell. -/
def c5s : SnakeS :=
  ⟨[(5, 5), (4, 5), (3, 5), (2, 5), (1, 5), (0, 5)], (1, 0), 10, 1, true, 0, 6⟩

/-- The trap set for the C5 counterexample. -/
def c5t : TrapS := ⟨[(5, 5)]⟩

/-- C10 witness: a snake whose head `(5,5)` lies on a non-head segment of
the other snake. -/
def c10self : SnakeS := ⟨[(5, 5), (4, 5), (3, 5), (2, 5), (1, 5)], (1, 0), 0, 0, true, 0, 5⟩

/-- The other snake for the C10 witness; its head is `(6,5)` and its tail
contains `(5,5)`. -/
def c10other : SnakeS := ⟨[(6, 5), (5, 5), (6, 6)], (1, 0), 0, 0, true, 0, 3⟩

/-! ## A* invariant vocabulary -/

/-- The step count recorded by a heap entry: its path has one cell more
than its step count. -/
def entryG (e : AEntry) : ℕ := e.2.2.length - 1

/-- `n` is the length of a shortest admissible walk from `a` to `b` on the
obstacle-free grid. -/
def IsDist (a b : Cell) (n : ℕ) : Prop :=
  GridWalk ∅ a b n ∧ ∀ m, GridWalk ∅ a b m → n ≤ m

/-- What every A* heap entry satisfies on the obstacle-free grid: the path
records `entryG e` steps, starts at `start`, ends at the entry's cell,
witnesses an admissible walk of that length, and the priority is the
recorded step count plus the heuristic at the cell. -/
structure EntryInv (start : Cell) (hfun : Cell → ℚ) (e : AEntry) : Prop where
  len : e.2.2.length = entryG e + 1
  head : e.2.2.headI = start
  last : e.2.2.getLast? = some e.2.1
  walk : GridWalk ∅ start e.2.1 (entryG e)
  key : e.1 = (entryG e : ℚ) + hfun e.2.1

/-- The A* loop invariant on the obstacle-free grid: every entry is
well-formed; closed cells carry their true shortest distance in `gscore`;
the start is closed or enqueued at distance 0; every in-bounds unclosed
neighbour of a closed cell has a live entry within one step of that
cell's distance; every recorded `gscore` of an unclosed cell has a live
entry attaining it; and every live entry's cell has a recorded `gscore`
no larger than the entry's step count. -/
structure AInv (start : Cell) (hfun : Cell → ℚ) (heap : List AEntry)
    (gs : List (Cell × ℕ)) (closed : Finset Cell) : Prop where
  entries : ∀ e ∈ heap, EntryInv start hfun e
  settled : ∀ c ∈ closed, ∃ gc, lookupG gs c = some gc ∧ IsDist start c gc
  startm : start ∈ closed ∨ ∃ e ∈ heap, e.2.1 = start ∧ entryG e = 0
  frontier : ∀ c ∈ closed, ∀ gc, lookupG gs c = some gc →
    ∀ dd ∈ scanDirs, inBounds (cellAdd c dd) = true → cellAdd c dd ∉ closed →
    ∃ e ∈ heap, e.2.1 = cellAdd c dd ∧ entryG e ≤ gc + 1
  gslive : ∀ c, c ∉ closed → ∀ g, lookupG gs c = some g →
    ∃ e ∈ heap, e.2.1 = c ∧ entryG e = g
  gsdef : ∀ e ∈ heap, ∃ g, lookupG gs e.2.1 = some g ∧ g ≤ entryG e
  closedb : ∀ c ∈ closed, inBounds c = true

/-- The in-bounds cells as a finite set (`40 × 30 = 1200` cells). -/
def gridCells : Finset Cell := Finset.Icc (0 : ℤ) 39 ×ˢ Finset.Icc (0 : ℤ) 29

/-! ## Theorems -/

/-- C8: `is_safe` returns true exactly on the spec's condition: in bounds,
avoiding the snake's non-head segments, and avoiding every opponent
segment when an opponent is supplied (the opponent check being skipped
when no opponent is given). -/
theorem is_safe_iff_spec (snake : SnakeS) (candidate : Cell) (opponent : Option SnakeS) :
    is_safe snake candidate opponent = true ↔ isSafeSpec snake candidate opponent := by
  unfold is_safe isSafeSpec inBounds
  constructor
  · intro h
    by_cases hb : (0 ≤ candidate.1 ∧ candidate.1 < GRID_W ∧ 0 ≤ candidate.2 ∧ candidate.2 < GRID_H)
    · refine ⟨hb, ?_, ?_⟩
      · intro seg hseg heq
        subst heq
        simp only [decide_eq_true_eq, hb.1, hb.2.1, hb.2.2.1, hb.2.2.2] at h
        simp [hseg] at h
      · intro o ho seg hseg heq
        subst ho
        subst heq
        by_cases hm : candidate ∈ snake.segments.tail
        · simp [hm] at h
        · simp only [decide_eq_true_eq, hb.1, hb.2.1, hb.2.2.1, hb.2.2.2] at h
          simp [hm, hseg] at h
    · exfalso
      apply hb
      by_contra hb'
      simp only [decide_eq_true_eq] at h
      by_cases h1 : 0 ≤ candidate.1 <;>
        by_cases h2 : candidate.1 < GRID_W <;>
        by_cases h3 : 0 ≤ candidate.2 <;>
        by_cases h4 : candidate.2 < GRID_H <;>
        simp_all
  · rintro ⟨hb, hself, hopp⟩
    have hb' : (decide (0 ≤ candidate.1) && decide (candidate.1 < GRID_W) &&
        decide (0 ≤ candidate.2) && decide (candidate.2 < GRID_H)) = true := by
      simp [hb.1, hb.2.1, hb.2.2.1, hb.2.2.2]
    have hm : candidate ∉ snake.segments.tail := by
      intro hmem
      exact hself candidate hmem rfl
    cases opponent with
    | none => simp [hb', hm]
    | some o =>
      have : candidate ∉ o.segments := by
        intro hmem
        exact hopp o rfl candidate hmem rfl
      simp [hb', hm, this]


/-- The attribute `body_collision_penalty` is not declared on `GameConfig`:
only `bodey_collision_penalty` is. -/
theorem configAttr_body_collision_penalty (cfg : GameConfig) :
    configAttr cfg "body_collision_penalty" = none := rfl

/-- The body-collision loop raises on its first iteration. -/
theorem bodyCollisionLoop_succ_raises (cfg : GameConfig) (n : ℕ) (s : SnakeS) :
    bodyCollisionLoop cfg (n + 1) s = .error .attributeError := by
  simp only [bodyCollisionLoop, configAttr_body_collision_penalty]

/-- C10: whenever neither shield is active and the first snake's head lies
on a non-head segment of the second snake without coinciding with its
head, `check_collision_with_other` raises `AttributeError`: the
body-collision branch reads `config.body_collision_penalty`, an attribute
the dataclass does not define (it defines `bodey_collision_penalty`), so
the branch never completes normally. -/
theorem body_collision_branch_raises (cfg : GameConfig) (s other : SnakeS)
    (hs : ¬ s.shield_timer > 0) (ho : ¬ other.shield_timer > 0)
    (hne : s.segments ≠ []) (hone : other.segments ≠ [])
    (hmem : s.segments.headI ∈ other.segments.tail)
    (hhead : s.segments.headI ≠ other.segments.headI)
    (hpen : 0 < cfg.collision_segment_penalty) :
    checkCollisionWithOther cfg s other = .error .attributeError := by
  unfold checkCollisionWithOther
  rw [if_neg (by simp only [not_or]; exact ⟨hne, hone, hs, ho⟩)]
  rw [if_neg (by rintro ⟨h1, _⟩; exact hhead h1)]
  rw [if_pos hmem]
  obtain ⟨n, hn⟩ : ∃ n, cfg.collision_segment_penalty = n + 1 :=
    ⟨cfg.collision_segment_penalty - 1, by omega⟩
  rw [hn, bodyCollisionLoop_succ_raises]

/-- Witness for C10 at a concrete pair of snakes. -/
theorem body_collision_branch_raises_witness :
    checkCollisionWithOther {} c10self c10other = .error .attributeError :=
  body_collision_branch_raises {} c10self c10other (by decide) (by decide) (by decide)
    (by decide) (by decide) (by decide) (by decide)

/-- C4 (code bug): at the failing input — equal scores 10, six segments
each, shields inactive, heads on the same cell — the head-to-head branch
penalizes both snakes symmetrically (score 10 → 6, shield 2 granted to
each) but removes exactly ONE tail segment from each, although
`collision_segment_penalty = 2`: the `return True` at game_settings.py
line 189 sits inside the penalty loop and stops it after one iteration. -/
theorem head_to_head_removes_one_segment :
    (checkCollisionWithOther {} c4s1 c4s2).toOption =
      some (true,
        ⟨[(10, 10), (9, 10), (8, 10), (7, 10), (6, 10)], (1, 0), 6, 2, true, 0, 5⟩,
        ⟨[(10, 10), (11, 10), (12, 10), (13, 10), (14, 10)], (-1, 0), 6, 2, true, 0, 5⟩) ∧
    GameConfig.collision_segment_penalty {} = 2 ∧
    c4s1.segments.length = 6 ∧ c4s2.segments.length = 6 := by
  decide

/-- `headToHeadOnce` copies the `alive` flags through unchanged. -/
theorem headToHeadOnce_alive (cfg : GameConfig) (s other : SnakeS) :
    (headToHeadOnce cfg s other).1.alive = s.alive ∧
      (headToHeadOnce cfg s other).2.alive = other.alive := by
  simp only [headToHeadOnce]
  split_ifs <;> exact ⟨rfl, rfl⟩

/-- When the body-collision loop does complete (only possible with a zero
iteration count), it returns the snake unchanged. -/
theorem bodyCollisionLoop_ok_eq (cfg : GameConfig) (n : ℕ) (s s' : SnakeS)
    (h : bodyCollisionLoop cfg n s = .ok s') : s' = s := by
  cases n with
  | zero =>
    simp only [bodyCollisionLoop, Except.ok.injEq] at h
    exact h.symm
  | succ n =>
    rw [bodyCollisionLoop_succ_raises] at h
    cases h

/-- `check_collision_with_other` never changes either `alive` flag when it
returns normally. -/
theorem checkCollisionWithOther_alive (cfg : GameConfig) (s other : SnakeS)
    (b : Bool) (s' o' : SnakeS)
    (h : checkCollisionWithOther cfg s other = .ok (b, s', o')) :
    s'.alive = s.alive ∧ o'.alive = other.alive := by
  simp only [checkCollisionWithOther] at h
  split_ifs at h with h1 h2 h3
  · simp only [Except.ok.injEq, Prod.mk.injEq] at h
    rw [← h.2.1, ← h.2.2]
    exact ⟨rfl, rfl⟩
  · simp only [Except.ok.injEq, Prod.mk.injEq] at h
    rw [← h.2.1, ← h.2.2]
    exact headToHeadOnce_alive cfg s other
  · rcases hbc : bodyCollisionLoop cfg cfg.collision_segment_penalty s with e | s''
    · rw [hbc] at h
      cases h
    · rw [hbc] at h
      simp only [Except.ok.injEq, Prod.mk.injEq] at h
      rw [← h.2.1, ← h.2.2, bodyCollisionLoop_ok_eq cfg _ s s'' hbc]
      exact ⟨rfl, rfl⟩
  · simp only [Except.ok.injEq, Prod.mk.injEq] at h
    rw [← h.2.1, ← h.2.2]
    exact ⟨rfl, rfl⟩

/-- One trap-penalty iteration leaves `alive` unchanged. -/
theorem trapSegStep_alive (cfg : GameConfig) (s : SnakeS) :
    (trapSegStep cfg s).alive = s.alive := by
  simp only [trapSegStep]
  split_ifs <;> rfl

/-- The trap-penalty loop leaves `alive` unchanged. -/
theorem trapSegLoop_alive (cfg : GameConfig) (n : ℕ) (s : SnakeS) :
    (trapSegLoop cfg n s).alive = s.alive := by
  induction n generalizing s with
  | zero => rfl
  | succ n ih =>
    show (trapSegLoop cfg n (trapSegStep cfg s)).alive = s.alive
    rw [ih, trapSegStep_alive]

/-- `Trap.check_collision` leaves `alive` unchanged. -/
theorem trapCheckCollision_alive (cfg : GameConfig) (s : SnakeS) (t : TrapS) :
    (trapCheckCollision cfg s t).2.1.alive = s.alive := by
  simp only [trapCheckCollision]
  split_ifs
  · show (trapSegLoop cfg cfg.trap_segment_penalty _).alive = s.alive
    rw [trapSegLoop_alive]
  · rfl

/-- The food stage leaves `alive` unchanged. -/
theorem foodPhase_alive (cfg : GameConfig) (s : SnakeS) (f : FoodS) :
    (foodPhase cfg s f).1.alive = s.alive := by
  simp only [foodPhase]
  split_ifs <;> rfl

/-- The trap stage leaves `alive` unchanged. -/
theorem trapPhase_alive (cfg : GameConfig) (s : SnakeS) (t : TrapS) :
    (trapPhase cfg s t).1.alive = s.alive := by
  simp only [trapPhase]
  split_ifs
  · exact trapCheckCollision_alive cfg s t
  · rfl

/-- C3 amended: the collision phase of the game loop never kills a snake.
Whenever `Game.check_collisions` completes normally — which covers every
head-to-head contact, penalties and shields being applied instead — both
snakes keep exactly the `alive` value they entered with; contact with a
non-head opponent segment instead raises `AttributeError` (see C10).  The
claimed `alive = false` outcome does not exist in the code. -/
theorem check_collisions_never_kills (cfg : GameConfig) (s1 s2 : SnakeS)
    (food : FoodS) (traps : TrapS) (r : SnakeS × SnakeS × FoodS × TrapS)
    (h : gameCheckCollisions cfg s1 s2 food traps = .ok r) :
    r.1.alive = s1.alive ∧ r.2.1.alive = s2.alive := by
  simp only [gameCheckCollisions] at h
  split_ifs at h with halive
  · rcases hc1 : checkCollisionWithOther cfg (trapPhase cfg (foodPhase cfg s1 food).1 traps).1
        (trapPhase cfg (foodPhase cfg s2 (foodPhase cfg s1 food).2).1
          (trapPhase cfg (foodPhase cfg s1 food).1 traps).2).1 with e | p1
    · rw [hc1] at h
      cases h
    · obtain ⟨b1, s1c, s2c⟩ := p1
      rw [hc1] at h
      dsimp only at h
      rcases hc2 : checkCollisionWithOther cfg s2c s1c with e | p2
      · rw [hc2] at h
        cases h
      · obtain ⟨b2, s2d, s1d⟩ := p2
        rw [hc2] at h
        dsimp only at h
        simp only [Except.ok.injEq] at h
        have k1 := checkCollisionWithOther_alive cfg _ _ b1 s1c s2c hc1
        have k2 := checkCollisionWithOther_alive cfg _ _ b2 s2d s1d hc2
        rw [← h]
        constructor
        · show s1d.alive = s1.alive
          rw [k2.2, k1.1, trapPhase_alive, foodPhase_alive]
        · show s2d.alive = s2.alive
          rw [k2.1, k1.2, trapPhase_alive, foodPhase_alive]
  · simp only [Except.ok.injEq] at h
    rw [← h]
    constructor
    · show (trapPhase cfg (foodPhase cfg s1 food).1 traps).1.alive = s1.alive
      rw [trapPhase_alive, foodPhase_alive]
    · show (trapPhase cfg (foodPhase cfg s2 (foodPhase cfg s1 food).2).1
          (trapPhase cfg (foodPhase cfg s1 food).1 traps).2).1.alive = s2.alive
      rw [trapPhase_alive, foodPhase_alive]

/-- C3 counterexample: the heads of two alive snakes coincide (so the acting
snake's new head equals an opponent segment), shields inactive, yet the
collision phase completes with BOTH snakes still alive — each merely loses
score and gains a shield — where the claim requires `alive = false`. -/
theorem opponent_collision_no_death_cex :
    c3s1.segments.headI ∈ c3s2.segments ∧ c3s2.alive = true ∧
    ¬ c3s1.shield_timer > 0 ∧ ¬ c3s2.shield_timer > 0 ∧
    (gameCheckCollisions {} c3s1 c3s2 ⟨[]⟩ ⟨[]⟩).toOption =
      some (⟨[(10, 10), (9, 10), (8, 10), (7, 10), (6, 10)], (1, 0), 0, 2, true, 0, 5⟩,
            ⟨[(10, 10), (11, 10), (12, 10), (13, 10), (14, 10)], (-1, 0), 0, 2, true, 0, 5⟩,
            ⟨[]⟩, ⟨[]⟩) := by
  decide

/-- Witness for the C3 amended theorem at a concrete collision state. -/
theorem check_collisions_never_kills_witness :
    ((⟨[(10, 10), (9, 10), (8, 10), (7, 10), (6, 10)], (1, 0), 0, 2, true, 0, 5⟩ : SnakeS),
     (⟨[(10, 10), (11, 10), (12, 10), (13, 10), (14, 10)], (-1, 0), 0, 2, true, 0, 5⟩ : SnakeS),
     (⟨[]⟩ : FoodS), (⟨[]⟩ : TrapS)).1.alive = c3s1.alive ∧
    ((⟨[(10, 10), (9, 10), (8, 10), (7, 10), (6, 10)], (1, 0), 0, 2, true, 0, 5⟩ : SnakeS),
     (⟨[(10, 10), (11, 10), (12, 10), (13, 10), (14, 10)], (-1, 0), 0, 2, true, 0, 5⟩ : SnakeS),
     (⟨[]⟩ : FoodS), (⟨[]⟩ : TrapS)).2.1.alive = c3s2.alive :=
  check_collisions_never_kills {} c3s1 c3s2 ⟨[]⟩ ⟨[]⟩ _ rfl

/-- One trap-penalty iteration commutes with overwriting the shield timer
(it never reads it). -/
theorem trapSegStep_shield (cfg : GameConfig) (s : SnakeS) (q : ℚ) :
    trapSegStep cfg { s with shield_timer := q } =
      { trapSegStep cfg s with shield_timer := q } := by
  rcases s with ⟨segs, dir, sc, sh, al, gr, len⟩
  show trapSegStep cfg ⟨segs, dir, sc, q, al, gr, len⟩ = _
  simp only [trapSegStep]
  split_ifs <;> rfl

/-- The trap-penalty loop commutes with overwriting the shield timer. -/
theorem trapSegLoop_shield (cfg : GameConfig) (n : ℕ) (s : SnakeS) (q : ℚ) :
    trapSegLoop cfg n { s with shield_timer := q } =
      { trapSegLoop cfg n s with shield_timer := q } := by
  induction n generalizing s with
  | zero => rfl
  | succ n ih =>
    show trapSegLoop cfg n (trapSegStep cfg { s with shield_timer := q }) = _
    rw [trapSegStep_shield, ih]
    rfl

/-- One trap-penalty iteration leaves `score` unchanged. -/
theorem trapSegStep_score (cfg : GameConfig) (s : SnakeS) :
    (trapSegStep cfg s).score = s.score := by
  simp only [trapSegStep]
  split_ifs <;> rfl

/-- The trap-penalty loop leaves `score` unchanged. -/
theorem trapSegLoop_score (cfg : GameConfig) (n : ℕ) (s : SnakeS) :
    (trapSegLoop cfg n s).score = s.score := by
  induction n generalizing s with
  | zero => rfl
  | succ n ih =>
    show (trapSegLoop cfg n (trapSegStep cfg s)).score = s.score
    rw [ih, trapSegStep_score]

/-- C5 amended: trap effects are NOT gated on the shield.  Whenever the
head occupies a trap cell, regardless of `shield_timer`, the trap fires:
the result does not depend on the incoming shield value, the score
penalty is applied (floored at 0), the shield is set to
`shield_duration`, and the trap is removed.  (Tail truncation happens
inside `trapSegLoop`, removing up to `trap_segment_penalty` segments
while the length exceeds the minimum and consuming pending growth
first.) -/
theorem trap_fires_regardless_of_shield (cfg : GameConfig) (s : SnakeS) (t : TrapS)
    (h : getHeadPosition s ∈ t.positions) :
    (∀ q q' : ℚ, trapCheckCollision cfg { s with shield_timer := q } t =
        trapCheckCollision cfg { s with shield_timer := q' } t) ∧
    (trapCheckCollision cfg s t).1 = true ∧
    (trapCheckCollision cfg s t).2.1.score = max 0 (s.score - cfg.trap_penalty) ∧
    (trapCheckCollision cfg s t).2.1.shield_timer = cfg.shield_duration ∧
    (trapCheckCollision cfg s t).2.2.positions = t.positions.erase (getHeadPosition s) := by
  refine ⟨?_, ?_, ?_, ?_, ?_⟩
  · intro q q'
    have hq : getHeadPosition { s with shield_timer := q } ∈ t.positions := h
    have hq' : getHeadPosition { s with shield_timer := q' } ∈ t.positions := h
    simp only [trapCheckCollision, if_pos hq, if_pos hq']
    have key : ∀ r : ℚ,
        ({ trapSegLoop cfg cfg.trap_segment_penalty
            { { s with shield_timer := r } with
              score := max 0 (({ s with shield_timer := r }).score - cfg.trap_penalty) } with
          shield_timer := cfg.shield_duration } : SnakeS) =
        { trapSegLoop cfg cfg.trap_segment_penalty
            { s with score := max 0 (s.score - cfg.trap_penalty) } with
          shield_timer := cfg.shield_duration } := by
      intro r
      have e1 : ({ { s with shield_timer := r } with
          score := max 0 (({ s with shield_timer := r }).score - cfg.trap_penalty) } : SnakeS) =
          { { s with score := max 0 (s.score - cfg.trap_penalty) } with shield_timer := r } := rfl
      rw [e1, trapSegLoop_shield]
    rw [key q, key q']
    rfl
  · simp only [trapCheckCollision, if_pos h]
  · simp only [trapCheckCollision, if_pos h]
    show (trapSegLoop cfg cfg.trap_segment_penalty _).score = _
    rw [trapSegLoop_score]
  · simp only [trapCheckCollision, if_pos h]
  · simp only [trapCheckCollision, if_pos h]

/-- Witness for the C5 amended theorem at a concrete snake and trap set. -/
theorem trap_fires_regardless_of_shield_witness :
    ((trapCheckCollision {} c5s c5t).1 = true ∧
      (trapCheckCollision {} c5s c5t).2.1.score = max 0 (c5s.score - (2 : ℤ))) ∧
    trapCheckCollision {} { c5s with shield_timer := 7 } c5t =
      trapCheckCollision {} { c5s with shield_timer := 0 } c5t := by
  have k := trap_fires_regardless_of_shield {} c5s c5t (by decide)
  exact ⟨⟨k.2.1, k.2.2.1⟩, k.1 7 0⟩

/-- C5 counterexample: a snake with an active shield (`shield_timer = 1`)
whose head sits on a trap cell does NOT come out unchanged — the score
drops, a tail segment is removed and the trap disappears — where the
claim requires no effect while the shield is up. -/
theorem trap_ignores_shield_cex :
    c5s.shield_timer > 0 ∧ getHeadPosition c5s ∈ c5t.positions ∧
    (trapCheckCollision {} c5s c5t).2.1.score ≠ c5s.score ∧
    (trapCheckCollision {} c5s c5t).2.1.segments ≠ c5s.segments ∧
    (trapCheckCollision {} c5s c5t).2.2 ≠ c5t := by
  decide

/-- Members of `possible_moves` are unit moves other than the reverse of the
current direction. -/
theorem possibleMoves_sub (snake : SnakeS) (m : Cell) (hm : m ∈ possibleMoves snake) :
    m ∈ allMoves ∧ m ≠ oppositeDir snake.direction := by
  rw [possibleMoves, List.mem_filter] at hm
  exact ⟨hm.1, by simpa using hm.2⟩

/-- `possible_moves` is never empty: at most one of the four unit moves can
equal the reverse of the current direction. -/
theorem possibleMoves_ne_nil (snake : SnakeS) : possibleMoves snake ≠ [] := by
  have h : ((1, 0) : Cell) ∈ possibleMoves snake ∨ ((-1, 0) : Cell) ∈ possibleMoves snake := by
    by_cases hd : ((1, 0) : Cell) = oppositeDir snake.direction
    · right
      rw [possibleMoves, List.mem_filter]
      refine ⟨by simp [allMoves], ?_⟩
      simp only [decide_eq_true_eq]
      rw [← hd]
      decide
    · left
      rw [possibleMoves, List.mem_filter]
      exact ⟨by simp [allMoves], by simpa using hd⟩
  rcases h with h | h <;> exact List.ne_nil_of_mem h

/-- The first safe-move pass only keeps possible moves. -/
theorem safeMoves1_sub (snake : SnakeS) (opponent : Option SnakeS) (traps : Option TrapS)
    (m : Cell) (hm : m ∈ safeMoves1 snake opponent traps) : m ∈ possibleMoves snake := by
  rw [safeMoves1, List.mem_filter] at hm
  exact hm.1

/-- Members of the first safe-move pass have an `is_safe` head. -/
theorem safeMoves1_is_safe (snake : SnakeS) (opponent : Option SnakeS) (traps : Option TrapS)
    (m : Cell) (hm : m ∈ safeMoves1 snake opponent traps) :
    is_safe snake (nhOf snake m) opponent = true := by
  rw [safeMoves1, List.mem_filter] at hm
  have := hm.2
  simp only [Bool.and_eq_true] at this
  exact this.1

/-- `safe_moves` (after the possible refill) only contains possible moves. -/
theorem safeMovesAll_sub (snake : SnakeS) (opponent : Option SnakeS) (traps : Option TrapS)
    (m : Cell) (hm : m ∈ safeMovesAll snake opponent traps) : m ∈ possibleMoves snake := by
  rw [safeMovesAll] at hm
  split_ifs at hm
  · exact (List.mem_filter.mp hm).1
  · exact safeMoves1_sub snake opponent traps m hm

/-- An `is_safe` possible move always survives into the refilled
`safe_moves`: either the first pass is nonempty (and equals `safe_moves`),
or the refill keeps every in-bounds possible move, and an `is_safe` head is
in bounds. -/
theorem safeMovesAll_ne_nil_of_safe (snake : SnakeS) (opponent : Option SnakeS)
    (traps : Option TrapS) (m : Cell) (hm : m ∈ possibleMoves snake)
    (hs : is_safe snake (nhOf snake m) opponent = true) :
    safeMovesAll snake opponent traps ≠ [] := by
  rw [safeMovesAll]
  split_ifs with h1
  · apply List.ne_nil_of_mem (a := m)
    rw [List.mem_filter]
    refine ⟨hm, ?_⟩
    have hb := ((is_safe_iff_spec snake (nhOf snake m) opponent).mp hs).1
    simp [inBounds, hb.1, hb.2.1, hb.2.2.1, hb.2.2.2]
  · exact h1

/-- A result produced by the scoring loop is either the propagated
accumulator or one of the scanned moves. -/
theorem scoreLoopAux_mem (o : SearchOracles) (snake : SnakeS) (opponent : Option SnakeS)
    (traps : Option TrapS) :
    ∀ (moves : List Cell) (k : ℕ) (best : Option (ℚ × Cell)) (p : ℚ × Cell),
      scoreLoopAux o snake opponent traps moves k best = some p →
      best = some p ∨ p.2 ∈ moves := by
  intro moves
  induction moves with
  | nil =>
    intro k best p h
    exact Or.inl h
  | cons m ms ih =>
    intro k best p h
    rw [scoreLoopAux] at h
    split_ifs at h with ht
    · exact Or.inl h
    · rcases ih (k + 1) _ p h with h' | h'
      · rcases best with _ | ⟨bs, bm⟩
        · simp only [Option.some.injEq] at h'
          right
          rw [← h']
          exact List.mem_cons_self m ms
        · dsimp only at h'
          split_ifs at h' with hgt
          · simp only [Option.some.injEq] at h'
            right
            rw [← h']
            exact List.mem_cons_self m ms
          · exact Or.inl h'
      · exact Or.inr (List.mem_cons_of_mem m h')

/-- With the accumulator holding the running best score, the scoring loop
returns a pair whose score is attained and dominates both the accumulator
and every scanned move (time budget never firing). -/
theorem scoreLoopAux_max_acc (o : SearchOracles) (snake : SnakeS) (opponent : Option SnakeS)
    (traps : Option TrapS) (htime : ∀ k, o.timeUp k = false) :
    ∀ (moves : List Cell) (k : ℕ) (bs : ℚ) (bm : Cell),
      ∃ sc mv, scoreLoopAux o snake opponent traps moves k (some (bs, bm)) = some (sc, mv) ∧
        ((sc = bs ∧ mv = bm) ∨
          (mv ∈ moves ∧ sc = minimaxScoreTop o snake opponent traps mv + o.jitter mv)) ∧
        bs ≤ sc ∧
        ∀ m ∈ moves, minimaxScoreTop o snake opponent traps m + o.jitter m ≤ sc := by
  intro moves
  induction moves with
  | nil =>
    intro k bs bm
    exact ⟨bs, bm, rfl, Or.inl ⟨rfl, rfl⟩, le_refl bs, by simp⟩
  | cons m ms ih =>
    intro k bs bm
    rw [scoreLoopAux, htime k, if_neg (by simp)]
    by_cases hgt : minimaxScoreTop o snake opponent traps m + o.jitter m > bs
    · obtain ⟨sc, mv, heq, hcase, hle, hdom⟩ :=
        ih (k + 1) (minimaxScoreTop o snake opponent traps m + o.jitter m) m
      refine ⟨sc, mv, ?_, ?_, ?_, ?_⟩
      · rw [← heq]
        dsimp only
        rw [if_pos hgt]
      · rcases hcase with ⟨h1, h2⟩ | ⟨h1, h2⟩
        · exact Or.inr ⟨by rw [h2]; exact List.mem_cons_self m ms, by rw [h1, h2]⟩
        · exact Or.inr ⟨List.mem_cons_of_mem m h1, h2⟩
      · exact le_trans (le_of_lt hgt) hle
      · intro m' hm'
        rcases List.mem_cons.mp hm' with rfl | hm'
        · exact hle
        · exact hdom m' hm'
    · obtain ⟨sc, mv, heq, hcase, hle, hdom⟩ := ih (k + 1) bs bm
      refine ⟨sc, mv, ?_,
        hcase.imp id (fun h => ⟨List.mem_cons_of_mem m h.1, h.2⟩), hle, ?_⟩
      · rw [← heq]
        dsimp only
        rw [if_neg hgt]
      · intro m' hm'
        rcases List.mem_cons.mp hm' with rfl | hm'
        · exact le_trans (le_of_not_lt hgt) hle
        · exact hdom m' hm'

/-- Starting from an empty accumulator and a nonempty move list, the scoring
loop returns a member whose score dominates every scanned move. -/
theorem scoreLoopAux_max (o : SearchOracles) (snake : SnakeS) (opponent : Option SnakeS)
    (traps : Option TrapS) (htime : ∀ k, o.timeUp k = false)
    (moves : List Cell) (hne : moves ≠ []) :
    ∃ sc mv, scoreLoopAux o snake opponent traps moves 0 none = some (sc, mv) ∧
      mv ∈ moves ∧ sc = minimaxScoreTop o snake opponent traps mv + o.jitter mv ∧
      ∀ m ∈ moves, minimaxScoreTop o snake opponent traps m + o.jitter m ≤ sc := by
  rcases moves with _ | ⟨m, ms⟩
  · exact absurd rfl hne
  · rw [scoreLoopAux, htime 0, if_neg (by simp)]
    obtain ⟨sc, mv, heq, hcase, hle, hdom⟩ := scoreLoopAux_max_acc o snake opponent traps htime
      ms 1 (minimaxScoreTop o snake opponent traps m + o.jitter m) m
    refine ⟨sc, mv, heq, ?_, ?_, ?_⟩
    · rcases hcase with ⟨_, h2⟩ | ⟨h1, _⟩
      · rw [h2]
        exact List.mem_cons_self m ms
      · exact List.mem_cons_of_mem m h1
    · rcases hcase with ⟨h1, h2⟩ | ⟨_, h2⟩
      · rw [h1, h2]
      · exact h2
    · intro m' hm'
      rcases List.mem_cons.mp hm' with rfl | hm'
      · exact hle
      · exact hdom m' hm'

/-- The scoring-loop exit of `decide_move` (best move, or random choice)
returns a member of `safe_moves`. -/
theorem decideMove_loop_mem (o : SearchOracles) (snake : SnakeS)
    (opponent : Option SnakeS) (traps : Option TrapS)
    (hne : safeMovesAll snake opponent traps ≠ []) :
    (match scoreLoopAux o snake opponent traps (safeMovesAll snake opponent traps) 0 none with
     | some p => p.2
     | none => (safeMovesAll snake opponent traps).getD
         (o.pick % (safeMovesAll snake opponent traps).length) (1, 0)) ∈
      safeMovesAll snake opponent traps := by
  rcases hsl : scoreLoopAux o snake opponent traps (safeMovesAll snake opponent traps) 0 none
    with _ | p
  · have hlen : 0 < (safeMovesAll snake opponent traps).length := List.length_pos.mpr hne
    show (safeMovesAll snake opponent traps).getD
        (o.pick % (safeMovesAll snake opponent traps).length) (1, 0) ∈
      safeMovesAll snake opponent traps
    rw [List.getD_eq_getElem _ _ (Nat.mod_lt _ hlen)]
    exact List.getElem_mem _
  · show p.2 ∈ safeMovesAll snake opponent traps
    rcases scoreLoopAux_mem o snake opponent traps _ 0 none p hsl with h | h
    · cases h
    · exact h

/-- Whenever `safe_moves` is nonempty, `decide_move` returns one of its
members. -/
theorem decideMove_mem (o : SearchOracles) (snake : SnakeS) (food : FoodS)
    (opponent : Option SnakeS) (traps : Option TrapS)
    (hne : safeMovesAll snake opponent traps ≠ []) :
    decideMove o snake food opponent traps ∈ safeMovesAll snake opponent traps := by
  simp only [decideMove]
  rw [if_neg hne]
  by_cases hf : food.positions = []
  · rw [if_pos hf, if_neg (by simp)]
    exact decideMove_loop_mem o snake opponent traps hne
  · rw [if_neg hf]
    split_ifs with h1 h2
    · exact h2.1
    · exact decideMove_loop_mem o snake opponent traps hne
    · exact decideMove_loop_mem o snake opponent traps hne

/-- C1: for every snapshot and every oracle instantiation, the move
returned by `decide_move` is one of the four unit vectors and is never
the reverse of the snake's current direction. -/
theorem decide_move_legal (o : SearchOracles) (snake : SnakeS) (food : FoodS)
    (opponent : Option SnakeS) (traps : Option TrapS) :
    decideMove o snake food opponent traps ∈ allMoves ∧
      decideMove o snake food opponent traps ≠ oppositeDir snake.direction := by
  have key : decideMove o snake food opponent traps ∈ possibleMoves snake := by
    by_cases hne : safeMovesAll snake opponent traps = []
    · simp only [decideMove]
      rw [if_pos hne]
      rcases hp : possibleMoves snake with _ | ⟨p, ps⟩
      · exact absurd hp (possibleMoves_ne_nil snake)
      · exact List.mem_cons_self p ps
    · exact safeMovesAll_sub snake opponent traps _
        (decideMove_mem o snake food opponent traps hne)
  exact ⟨(possibleMoves_sub snake _ key).1, (possibleMoves_sub snake _ key).2⟩

/-- A move that is immediately fatal in the simulated sense scores exactly
`-1e9` in `_minimax_score`. -/
theorem minimaxScoreTop_of_fatal (o : SearchOracles) (snake : SnakeS)
    (opponent : Option SnakeS) (traps : Option TrapS) (m : Cell)
    (h : simFatal snake opponent m) :
    minimaxScoreTop o snake opponent traps m = -(10 ^ 9) := by
  simp only [simFatal, nhOf] at h
  simp only [minimaxScoreTop]
  rcases h with h1 | h2 | h3
  · rw [if_pos h1]
  · by_cases hb : ¬ inBounds (cellAdd (getHeadPosition snake) m) = true
    · rw [if_pos hb]
    · rw [if_neg hb, List.tail_cons, if_pos h2]
  · obtain ⟨op, rfl, hal, hmem⟩ := h3
    by_cases hb : ¬ inBounds (cellAdd (getHeadPosition snake) m) = true
    · rw [if_pos hb]
    · rw [if_neg hb, List.tail_cons]
      by_cases hself : cellAdd (getHeadPosition snake) m ∈ snake.segments.dropLast
      · rw [if_pos hself]
      · rw [if_neg hself]
        rw [if_pos ?_]
        show (if op.alive = true then op.segments else []) ≠ [] ∧
          cellAdd (getHeadPosition snake) m ∈ (if op.alive = true then op.segments else [])
        rw [if_pos hal]
        exact ⟨List.ne_nil_of_mem hmem, hmem⟩

/-- A move that is not immediately fatal scores `-1e7` (trap, shield down)
or the recursive search's value. -/
theorem minimaxScoreTop_of_not_fatal (o : SearchOracles) (snake : SnakeS)
    (opponent : Option SnakeS) (traps : Option TrapS) (m : Cell)
    (h : ¬ simFatal snake opponent m) :
    minimaxScoreTop o snake opponent traps m = -(10 ^ 7) ∨
      minimaxScoreTop o snake opponent traps m = o.rest m := by
  simp only [simFatal, nhOf, not_or] at h
  obtain ⟨h1, h2, h3⟩ := h
  simp only [minimaxScoreTop]
  rw [if_neg h1, List.tail_cons, if_neg h2, if_neg ?_]
  · split_ifs
    · exact Or.inl rfl
    · exact Or.inr rfl
  · rintro ⟨hne, hmem⟩
    rcases hop : opponent with _ | op
    · rw [hop] at hne
      exact hne rfl
    · rw [hop] at hne hmem
      dsimp only at hne hmem
      by_cases hal : op.alive = true
      · rw [if_pos hal] at hmem
        exact h3 ⟨op, hop, hal, hmem⟩
      · rw [if_neg hal] at hne
        exact hne rfl

/-- An `is_safe` head is never immediately fatal in the simulated sense:
`is_safe` additionally checks bounds, the whole non-head body (including
the tail cell the simulation vacates) and the opponent's segments whether
alive or not. -/
theorem not_simFatal_of_is_safe (snake : SnakeS) (opponent : Option SnakeS) (m : Cell)
    (hm : m ∈ allMoves) (h : is_safe snake (nhOf snake m) opponent = true) :
    ¬ simFatal snake opponent m := by
  obtain ⟨hb, hself, hopp⟩ := (is_safe_iff_spec snake (nhOf snake m) opponent).mp h
  have hnh : nhOf snake m ≠ getHeadPosition snake := by
    simp only [allMoves, List.mem_cons, List.not_mem_nil, or_false] at hm
    rcases hm with rfl | rfl | rfl | rfl <;>
      · intro heq
        rw [Prod.ext_iff] at heq
        simp only [nhOf, cellAdd] at heq
        omega
  rintro (h1 | h2 | h3)
  · exact h1 (by simp [inBounds, hb.1, hb.2.1, hb.2.2.1, hb.2.2.2])
  · have hmem : nhOf snake m ∈ snake.segments :=
      List.Sublist.mem h2 (List.dropLast_sublist _)
    rcases hs : snake.segments with _ | ⟨a, t⟩
    · rw [hs] at hmem
      exact (List.not_mem_nil _) hmem
    · rw [hs] at hmem
      rcases List.mem_cons.mp hmem with heq | hmem'
    
      · exact hnh (by rw [heq, getHeadPosition, hs]; rfl)
      · exact hself (nhOf snake m) (by rw [hs]; exact hmem') rfl
  · obtain ⟨op, hoeq, _, hmem⟩ := h3
    exact hopp op hoeq (nhOf snake m) hmem rfl

/-- `decide_move`'s return either passed the A* branch's score guard or is
the value of the scoring-loop exit. -/
theorem decideMove_exit (o : SearchOracles) (snake : SnakeS) (food : FoodS)
    (opponent : Option SnakeS) (traps : Option TrapS)
    (hne : safeMovesAll snake opponent traps ≠ []) :
    (∃ mv, decideMove o snake food opponent traps = mv ∧
        minimaxScoreTop o snake opponent traps mv > -(10 ^ 6)) ∨
      decideMove o snake food opponent traps =
        (match scoreLoopAux o snake opponent traps (safeMovesAll snake opponent traps) 0 none with
         | some p => p.2
         | none => (safeMovesAll snake opponent traps).getD
             (o.pick % (safeMovesAll snake opponent traps).length) (1, 0)) := by
  simp only [decideMove]
  rw [if_neg hne]
  by_cases hf : food.positions = []
  · rw [if_pos hf, if_neg (by simp)]
    exact Or.inr rfl
  · rw [if_neg hf]
    split_ifs with h1 h2
    · exact Or.inl ⟨_, rfl, h2.2⟩
    · exact Or.inr rfl
    · exact Or.inr rfl

/-- C2 amended: under an unlimited time budget, whenever some non-reversing
move has an `is_safe` head, `decide_move` never returns a move whose
simulated head is out of bounds, on the post-move body (the vacated tail
cell does not count), or on an ALIVE opponent's segment.  The oracle
hypotheses record what the source guarantees: the recursive minimax value
is at least its own loss sentinel `-1e6`, and the jitter sample lies in
`[0, 0.02)`.  (The original claim, with fatality taken in the `is_safe`
sense, fails: see the counterexample, where the only `is_safe` moves land
on traps and the refilled `safe_moves` lets a move onto the snake's own
tail cell win the scoring loop.) -/
theorem decide_move_avoids_fatal (o : SearchOracles) (snake : SnakeS) (food : FoodS)
    (opponent : Option SnakeS) (traps : Option TrapS)
    (hrest : ∀ m, -(10 ^ 6) ≤ o.rest m)
    (hjit : ∀ m, 0 ≤ o.jitter m ∧ o.jitter m < 1 / 50)
    (htime : ∀ k, o.timeUp k = false)
    (m0 : Cell) (hm0 : m0 ∈ possibleMoves snake)
    (hsafe : is_safe snake (nhOf snake m0) opponent = true) :
    ¬ simFatal snake opponent (decideMove o snake food opponent traps) := by
  have hne := safeMovesAll_ne_nil_of_safe snake opponent traps m0 hm0 hsafe
  have hmem := decideMove_mem o snake food opponent traps hne
  by_cases hA : safeMoves1 snake opponent traps = []
  · intro hfatal
    have hfr := minimaxScoreTop_of_fatal o snake opponent traps _ hfatal
    have hm0mem : m0 ∈ safeMovesAll snake opponent traps := by
      rw [safeMovesAll, if_pos hA, List.mem_filter]
      refine ⟨hm0, ?_⟩
      have hb := ((is_safe_iff_spec snake (nhOf snake m0) opponent).mp hsafe).1
      simp [inBounds, hb.1, hb.2.1, hb.2.2.1, hb.2.2.2]
    have hm0notfatal := not_simFatal_of_is_safe snake opponent m0
      (possibleMoves_sub snake m0 hm0).1 hsafe
    have hm0score : -(10 ^ 7) ≤ minimaxScoreTop o snake opponent traps m0 := by
      rcases minimaxScoreTop_of_not_fatal o snake opponent traps m0 hm0notfatal with h | h
      · rw [h]
      · rw [h]
        calc -(10 ^ 7 : ℚ) ≤ -(10 ^ 6) := by norm_num
          _ ≤ o.rest m0 := hrest m0
    rcases decideMove_exit o snake food opponent traps hne with ⟨mv, hr, hgt⟩ | hr
    · rw [hr] at hfr
      rw [hfr] at hgt
      norm_num at hgt
    · obtain ⟨sc, mv, heq, hmvmem, hsc, hdom⟩ :=
        scoreLoopAux_max o snake opponent traps htime _ hne
      rw [heq] at hr
      dsimp only at hr
      rw [hr] at hfr
      have hdm := hdom m0 hm0mem
      rw [hsc, hfr] at hdm
      have hj0 := (hjit m0).1
      have hjmv := (hjit mv).2
      have hcontra : (-(10 ^ 7) : ℚ) ≤ -(10 ^ 9) + 1 / 50 := by
        calc (-(10 ^ 7) : ℚ) ≤ minimaxScoreTop o snake opponent traps m0 := hm0score
          _ ≤ minimaxScoreTop o snake opponent traps m0 + o.jitter m0 := by linarith
          _ ≤ -(10 ^ 9) + o.jitter mv := hdm
          _ ≤ -(10 ^ 9) + 1 / 50 := by linarith
      norm_num at hcontra
  · have hr1 : decideMove o snake food opponent traps ∈ safeMoves1 snake opponent traps := by
      rw [safeMovesAll, if_neg hA] at hmem
      exact hmem
    exact not_simFatal_of_is_safe snake opponent _
      ((possibleMoves_sub snake _ (safeMoves1_sub snake opponent traps _ hr1)).1)
      (safeMoves1_is_safe snake opponent traps _ hr1)

/-- Witness for the C2 amended theorem: on the counterexample snapshot the
hypotheses hold and the returned move (left, onto the vacated tail cell)
is indeed not fatal in the simulated sense. -/
theorem decide_move_avoids_fatal_witness :
    ¬ simFatal cexSnake none (decideMove cexOracles cexSnake ⟨[]⟩ none (some cexTraps)) :=
  decide_move_avoids_fatal cexOracles cexSnake ⟨[]⟩ none (some cexTraps)
    (fun _ => by norm_num [cexOracles])
    (fun _ => by norm_num [cexOracles])
    (fun _ => rfl)
    (1, 0) (by decide) (by decide)

/-- C2 counterexample, refuting the claim as stated (fatality in the
`is_safe` sense): on this snapshot a non-reversing `is_safe` move exists
(right, onto the trap at `(2,0)`), the time budget never fires, the
jitter is 0 and the recursive-search oracle takes the exact value `-1e6`
the source computes (the tail-cell move dead-ends, hitting the
no-available-moves sentinel at bot.py line 738) — yet `decide_move`
returns the move onto the snake's own tail cell `(0,0)`, which `is_safe`
rejects. -/
theorem decide_move_returns_unsafe_cex :
    (is_safe cexSnake (nhOf cexSnake (1, 0)) none = true ∧
      (1, 0) ∈ possibleMoves cexSnake) ∧
    decideMove cexOracles cexSnake ⟨[]⟩ none (some cexTraps) = (-1, 0) ∧
    is_safe cexSnake (nhOf cexSnake (-1, 0)) none = false := by
  refine ⟨⟨by decide, by decide⟩, ?_, by decide⟩
  have hsafe : safeMovesAll cexSnake none (some cexTraps) = [(1, 0), (-1, 0)] := by decide
  have h1 : minimaxScoreTop cexOracles cexSnake none (some cexTraps) (1, 0) = -(10 ^ 7) := by
    decide
  have h2 : minimaxScoreTop cexOracles cexSnake none (some cexTraps) (-1, 0) = -(10 ^ 6) := by
    decide
  have ht : ∀ k, cexOracles.timeUp k = false := fun _ => rfl
  have hj : ∀ m, cexOracles.jitter m = 0 := fun _ => rfl
  have hloop : scoreLoopAux cexOracles cexSnake none (some cexTraps) [(1, 0), (-1, 0)] 0 none =
      some (-(10 ^ 6), (-1, 0)) := by
    simp only [scoreLoopAux, ht, Bool.false_eq_true, if_false, h1, h2, hj, add_zero]
    rw [if_pos (by norm_num)]
  simp only [decideMove, hsafe]
  rw [if_neg (by decide)]
  simp [hloop]

/-- The threaded `_minimax_score` returns the snapshot it was given. -/
theorem minimaxScoreST_frame (o : SearchOracles) (m : Cell) (st : Snapshot) :
    (minimaxScoreST o m st).2 = st := rfl

/-- The threaded scoring loop returns the snapshot it was given. -/
theorem scoreLoopST_frame (o : SearchOracles) :
    ∀ (moves : List Cell) (k : ℕ) (best : Option (ℚ × Cell)) (st : Snapshot),
      (scoreLoopST o moves k best st).2 = st := by
  intro moves
  induction moves with
  | nil =>
    intro k best st
    rfl
  | cons m ms ih =>
    intro k best st
    rw [scoreLoopST]
    split_ifs
    · rfl
    · exact ih (k + 1) _ _

/-- C9: `decide_move` never mutates the caller's snapshot.  Each operation
the Python code performs on the snapshot (attribute reads, `[:]`/`list()`
copies, set constructions, membership tests, and the `_minimax_score`
calls, which immediately deep-copy the segments) is threaded through the
state, and the state that comes out is exactly the state that went in —
the input snake, food positions, opponent and traps are untouched. -/
theorem decide_move_preserves_snapshot (o : SearchOracles) (st : Snapshot) :
    (decideMoveST o st).2 = st ∧ ∀ m, (minimaxScoreST o m st).2 = st := by
  constructor
  · simp only [decideMoveST, sread]
    split_ifs <;> first
      | rfl
      | exact scoreLoopST_frame o _ _ _ _
  · intro m
    exact minimaxScoreST_frame o m st

/-- Each loop iteration counts one cell and consumes one fuel unit, so the
count grows by at most the fuel. -/
theorem floodLoop_le (O : Finset Cell) :
    ∀ (fuel : ℕ) (q : List Cell) (visited : Finset Cell) (count : ℕ),
      floodLoop O fuel q visited count ≤ count + fuel := by
  intro fuel
  induction fuel with
  | zero =>
    intro q visited count
    cases q <;> simp [floodLoop]
  | succ fuel ih =>
    intro q visited count
    cases q with
    | nil => simp [floodLoop]
    | cons pos q' =>
      calc floodLoop O (fuel + 1) (pos :: q') visited count =
            floodLoop O fuel (floodExpand O pos scanDirs (q', visited)).1
              (floodExpand O pos scanDirs (q', visited)).2 (count + 1) := rfl
        _ ≤ (count + 1) + fuel := ih _ _ _
        _ ≤ count + (fuel + 1) := by omega

/-- What one neighbour scan does: it appends a duplicate-free batch of
fresh (unvisited) free neighbours of `pos` to the queue, inserts exactly
those into the visited set, and afterwards every free neighbour of `pos`
in the scanned directions is visited. -/
theorem floodExpand_spec (O : Finset Cell) (pos : Cell) :
    ∀ (ds : List Cell) (q : List Cell) (visited : Finset Cell),
      ∃ news : List Cell,
        floodExpand O pos ds (q, visited) = (q ++ news, visited ∪ news.toFinset) ∧
        news.Nodup ∧
        (∀ c ∈ news, c ∉ visited ∧ freeCell O c ∧ ∃ d ∈ ds, c = cellAdd pos d) ∧
        (∀ d ∈ ds, freeCell O (cellAdd pos d) →
          cellAdd pos d ∈ visited ∪ news.toFinset) := by
  intro ds
  induction ds with
  | nil =>
    intro q visited
    exact ⟨[], by simp [floodExpand], by simp, by simp, by simp⟩
  | cons d ds ih =>
    intro q visited
    rw [floodExpand]
    split_ifs with hc
    · obtain ⟨news, heq, hnd, hprops, hcover⟩ := ih (q ++ [cellAdd pos d]) (insert (cellAdd pos d) visited)
      refine ⟨cellAdd pos d :: news, ?_, ?_, ?_, ?_⟩
      · rw [heq, Prod.mk.injEq]
        constructor
        · simp
        · rw [List.toFinset_cons, Finset.insert_union, Finset.union_insert]
      · refine List.Nodup.cons ?_ hnd
        intro hmem
        exact ((hprops _ hmem).1 (Finset.mem_insert_self _ _)).elim
      · intro c hc'
        rcases List.mem_cons.mp hc' with rfl | hc'
        · exact ⟨hc.2.1, ⟨hc.1, hc.2.2⟩, d, List.mem_cons_self d ds, rfl⟩
        · obtain ⟨hnv, hfree, d', hd', hce⟩ := hprops c hc'
          exact ⟨fun hv => hnv (Finset.mem_insert_of_mem hv), hfree, d',
            List.mem_cons_of_mem d hd', hce⟩
      · intro d' hd' hfree
        rcases List.mem_cons.mp hd' with rfl | hd'
        · simp
        · have := hcover d' hd' hfree
          rw [Finset.insert_union] at this
          simp only [List.toFinset_cons, Finset.union_insert]
          exact this
    · obtain ⟨news, heq, hnd, hprops, hcover⟩ := ih q visited
      refine ⟨news, heq, hnd, ?_, ?_⟩
      · intro c hc'
        obtain ⟨hnv, hfree, d', hd', hce⟩ := hprops c hc'
        exact ⟨hnv, hfree, d', List.mem_cons_of_mem d hd', hce⟩
      · intro d' hd' hfree
        by_cases hdd : d' = d
        · -- the guard failed but the neighbour is free, so it was already visited
          subst hdd
          have hv : cellAdd pos d' ∈ visited := by
            by_contra hnv
            exact hc ⟨hfree.1, hnv, hfree.2⟩
          exact Finset.mem_union_left _ hv
        · have hd'' : d' ∈ ds := by
            rcases List.mem_cons.mp hd' with h | h
            · exact absurd h hdd
            · exact h
          exact hcover d' hd'' hfree

/-- Main flood-fill invariant argument: when the region described by
`Reaches` fits strictly under the remaining fuel, the loop drains the
queue and the final count is exactly the region's size. -/
theorem floodLoop_exact (O : Finset Cell) (start : Cell) (S : Finset Cell)
    (hS : ∀ c, Reaches O start c ↔ c ∈ S) :
    ∀ (fuel : ℕ) (q : List Cell) (visited : Finset Cell) (count : ℕ),
      start ∈ visited →
      (∀ c ∈ visited, Reaches O start c) →
      q.Nodup →
      (∀ c ∈ q, c ∈ visited) →
      count + q.length = visited.card →
      (∀ c ∈ visited, c ∉ q → ∀ d ∈ scanDirs, freeCell O (cellAdd c d) →
        cellAdd c d ∈ visited) →
      S.card < count + fuel →
      floodLoop O fuel q visited count = S.card := by
  intro fuel
  induction fuel with
  | zero =>
    intro q visited count _ hvr _ _ hcard _ hlt
    exfalso
    have hsub : visited ⊆ S := fun c hc => (hS c).mp (hvr c hc)
    have := Finset.card_le_card hsub
    omega
  | succ fuel ih =>
    intro q visited count hstart hvr hnd hqv hcard hclosed hlt
    cases q with
    | nil =>
      have hsub : visited ⊆ S := fun c hc => (hS c).mp (hvr c hc)
      have hsup : S ⊆ visited := by
        intro c hc
        have hr := (hS c).mpr hc
        clear hc
        induction hr with
        | refl => exact hstart
        | step hb hadj hfree ihb =>
          obtain ⟨d, hd, rfl⟩ := hadj
          exact hclosed _ ihb (List.not_mem_nil _) d hd hfree
      have : visited = S := Finset.Subset.antisymm hsub hsup
      show count = S.card
      simp only [List.length_nil, Nat.add_zero] at hcard
      rw [hcard, this]
    | cons pos q' =>
      obtain ⟨news, heq, hnd', hprops, hcover⟩ := floodExpand_spec O pos scanDirs q' visited
      show floodLoop O fuel (floodExpand O pos scanDirs (q', visited)).1
          (floodExpand O pos scanDirs (q', visited)).2 (count + 1) = S.card
      rw [heq]
      have hposvis : pos ∈ visited := hqv pos (List.mem_cons_self pos q')
      have hnewfresh : ∀ c ∈ news, c ∉ visited := fun c hc => (hprops c hc).1
      have hdisj : Disjoint visited news.toFinset := by
        rw [Finset.disjoint_right]
        intro c hc
        exact hnewfresh c (List.mem_toFinset.mp hc)
      apply ih
      · exact Finset.mem_union_left _ hstart
      · intro c hc
        rcases Finset.mem_union.mp hc with hc | hc
        · exact hvr c hc
        · obtain ⟨_, hfree, d, hd, rfl⟩ := hprops c (List.mem_toFinset.mp hc)
          exact Reaches.step (hvr pos hposvis) ⟨d, hd, rfl⟩ hfree
      · refine List.Nodup.append ((List.nodup_cons.mp hnd).2) hnd' ?_
        intro c hcq hcn
        exact hnewfresh c hcn (hqv c (List.mem_cons_of_mem pos hcq))
      · intro c hc
        rcases List.mem_append.mp hc with hc | hc
        · exact Finset.mem_union_left _ (hqv c (List.mem_cons_of_mem pos hc))
        · exact Finset.mem_union_right _ (List.mem_toFinset.mpr hc)
      · rw [List.length_append, Finset.card_union_of_disjoint hdisj,
          List.toFinset_card_of_nodup hnd']
        simp only [List.length_cons] at hcard
        omega
      · intro c hc hcq d hd hfree
        rcases Finset.mem_union.mp hc with hcv | hcn
        · by_cases hcpos : c = pos
          · subst hcpos
            exact hcover d hd hfree
          · have : c ∉ pos :: q' := by
              intro hmem
              rcases List.mem_cons.mp hmem with h | h
              · exact hcpos h
              · exact hcq (List.mem_append_left _ h)
            exact Finset.mem_union_left _ (hclosed c hcv this d hd hfree)
        · exact absurd (List.mem_toFinset.mp hcn) fun h =>
            hcq (List.mem_append_right _ h)
      · omega

/-- C6: the flood fill (a) never returns more than the node budget, and
(b) returns exactly the number of cells in the connected free region of
the start cell whenever that region is strictly smaller than the budget
(`S` enumerates the region described by `Reaches`). -/
theorem flood_fill_bound_and_exact :
    (∀ (head_pos : Cell) (ms os : List Cell) (n : ℕ),
        floodFillArea head_pos ms os n ≤ n) ∧
    (∀ (head_pos : Cell) (ms os : List Cell) (n : ℕ) (S : Finset Cell),
        freeCell (ms.toFinset ∪ os.toFinset) head_pos →
        (∀ c, Reaches (ms.toFinset ∪ os.toFinset) head_pos c ↔ c ∈ S) →
        S.card < n →
        floodFillArea head_pos ms os n = S.card) := by
  constructor
  · intro head_pos ms os n
    calc floodFillArea head_pos ms os n ≤ 0 + n := floodLoop_le _ n [head_pos] {head_pos} 0
      _ = n := by omega
  · intro head_pos ms os n S _hfree hS hcard
    apply floodLoop_exact (ms.toFinset ∪ os.toFinset) head_pos S hS
    · exact Finset.mem_singleton_self head_pos
    · intro c hc
      rw [Finset.mem_singleton] at hc
      subst hc
      exact Reaches.refl
    · exact List.nodup_singleton head_pos
    · intro c hc
      rw [List.mem_singleton] at hc
      subst hc
      exact Finset.mem_singleton_self _
    · simp
    · intro c hc hcq
      exfalso
      rw [Finset.mem_singleton] at hc
      exact hcq (by rw [hc]; exact List.mem_singleton_self _)
    · omega

/-- Witness for C6 at a concrete corner configuration: start `(0,0)`, own
body blocking `(1,0)`, opponent blocking `(0,1)`, so the free region is
exactly the singleton start cell, well below the budget 300. -/
theorem flood_fill_bound_and_exact_witness :
    freeCell ([((1 : ℤ), (0 : ℤ))].toFinset ∪ [((0 : ℤ), (1 : ℤ))].toFinset) (0, 0) ∧
    floodFillArea (0, 0) [(1, 0)] [(0, 1)] 300 = ({(0, 0)} : Finset Cell).card := by
  have hO : ([((1 : ℤ), (0 : ℤ))].toFinset ∪ [((0 : ℤ), (1 : ℤ))].toFinset : Finset Cell) =
      [((1 : ℤ), (0 : ℤ)), ((0 : ℤ), (1 : ℤ))].toFinset := by decide
  constructor
  · exact ⟨by decide, by decide⟩
  · apply flood_fill_bound_and_exact.2 (0, 0) [(1, 0)] [(0, 1)] 300 {(0, 0)}
    · exact ⟨by decide, by decide⟩
    · intro c
      constructor
      · intro hr
        induction hr with
        | refl => exact Finset.mem_singleton_self _
        | step hb hadj hfree ihb =>
          exfalso
          rw [Finset.mem_singleton] at ihb
          obtain ⟨d, hd, rfl⟩ := hadj
          rw [ihb] at hfree
          have hd4 : d = ((1 : ℤ), (0 : ℤ)) ∨ d = (-1, 0) ∨ d = (0, 1) ∨ d = (0, -1) := by
            simpa [scanDirs] using hd
          rcases hd4 with rfl | rfl | rfl | rfl
          · exact hfree.2 (by decide)
          · exact absurd hfree.1 (by decide)
          · exact hfree.2 (by decide)
          · exact absurd hfree.1 (by decide)
      · intro hc
        rw [Finset.mem_singleton] at hc
        subst hc
        exact Reaches.refl
    · decide

/-- Enumeration of the scan directions. -/
theorem mem_scanDirs_iff (d : Cell) :
    d ∈ scanDirs ↔ d = (1, 0) ∨ d = (-1, 0) ∨ d = (0, 1) ∨ d = (0, -1) := by
  simp [scanDirs]

/-- No scan direction is zero, so stepping always moves. -/
theorem cellAdd_ne_self (c d : Cell) (hd : d ∈ scanDirs) : cellAdd c d ≠ c := by
  rcases (mem_scanDirs_iff d).mp hd with rfl | rfl | rfl | rfl <;>
    · intro h
      rw [Prod.ext_iff] at h
      simp only [cellAdd] at h
      omega

/-- Stepping from the same cell in different directions lands on different
cells. -/
theorem cellAdd_inj (c d d' : Cell) (h : cellAdd c d = cellAdd c d') : d = d' := by
  rw [Prod.ext_iff] at h ⊢
  simp only [cellAdd] at h
  omega

/-- Membership in `gridCells` is the bounds check. -/
theorem mem_gridCells (c : Cell) : c ∈ gridCells ↔ inBounds c = true := by
  rw [gridCells, Finset.mem_product, Finset.mem_Icc, Finset.mem_Icc, inBounds]
  simp only [Bool.and_eq_true, decide_eq_true_eq, GRID_W, GRID_H]
  omega

/-- The grid has `1200` cells. -/
theorem gridCells_card : gridCells.card = 1200 := by
  rw [gridCells, Finset.card_product, Int.card_Icc, Int.card_Icc]
  rfl

/-- Walk endpoints inherit boundedness from the start. -/
theorem GridWalk.inBounds_right {a b : Cell} {n : ℕ}
    (h : GridWalk ∅ a b n) (ha : inBounds a = true) : inBounds b = true := by
  induction h with
  | nil => exact ha
  | cons hadj hfree htail ih => exact ih hfree.1

/-- Walks compose. -/
theorem GridWalk.append {a b c : Cell} {n m : ℕ}
    (h1 : GridWalk ∅ a b n) (h2 : GridWalk ∅ b c m) : GridWalk ∅ a c (n + m) := by
  induction h1 with
  | nil => simpa using h2
  | cons hadj hfree htail ih =>
    have := GridWalk.cons hadj hfree (ih h2)
    simpa [Nat.add_right_comm] using this

/-- A one-step extension of a walk. -/
theorem GridWalk.snoc {a b c : Cell} {n : ℕ}
    (h : GridWalk ∅ a b n) (hadj : adjCell b c) (hc : inBounds c = true) :
    GridWalk ∅ a c (n + 1) :=
  GridWalk.append h (GridWalk.cons hadj ⟨hc, by simp [freeCell]⟩ (GridWalk.nil c))

/-- Shortest distances are unique. -/
theorem IsDist.unique {a b : Cell} {n m : ℕ}
    (h1 : IsDist a b n) (h2 : IsDist a b m) : n = m :=
  Nat.le_antisymm (h1.2 m h2.1) (h2.2 n h1.1)

/-- A consistent heuristic telescopes along a walk. -/
theorem heuristic_telescope (hfun : Cell → ℚ)
    (hcons : ∀ a b : Cell, adjCell a b → inBounds b = true → hfun a ≤ 1 + hfun b)
    {a b : Cell} {n : ℕ} (h : GridWalk ∅ a b n) : hfun a ≤ (n : ℚ) + hfun b := by
  induction h with
  | nil => simp
  | cons hadj hfree htail ih =>
    have h1 := hcons _ _ hadj hfree.1
    push_cast
    push_cast at ih
    linarith

/-- Every admissible walk is at least as long as the Manhattan distance. -/
theorem manhattan_le_walk {a b : Cell} {n : ℕ}
    (h : GridWalk ∅ a b n) : manhattan a b ≤ n := by
  induction h with
  | nil => simp [manhattan]
  | cons hadj hfree htail ih =>
    obtain ⟨d, hd, rfl⟩ := hadj
    rcases (mem_scanDirs_iff d).mp hd with rfl | rfl | rfl | rfl <;>
      · simp only [manhattan, cellAdd] at ih ⊢
        omega

/-- On the open grid a walk of exactly the Manhattan length exists between
any two in-bounds cells (move along x, then along y, staying inside the
bounding rectangle). -/
theorem walk_of_manhattan :
    ∀ (n : ℕ) (a b : Cell), manhattan a b = n → inBounds a = true → inBounds b = true →
      GridWalk ∅ a b n := by
  intro n
  induction n with
  | zero =>
    intro a b hm _ _
    have : a = b := by
      rw [Prod.ext_iff]
      simp only [manhattan] at hm
      omega
    subst this
    exact GridWalk.nil a
  | succ n ih =>
    intro a b hm ha hb
    by_cases hx : a.1 ≠ b.1
    · set d : Cell := if a.1 < b.1 then ((1 : ℤ), (0 : ℤ)) else (-1, 0) with hd
      have hdm : d ∈ scanDirs := by
        rw [mem_scanDirs_iff, hd]
        split_ifs <;> simp
      have hstep : manhattan (cellAdd a d) b = n ∧ inBounds (cellAdd a d) = true := by
        rw [hd]
        simp only [manhattan, cellAdd, inBounds, Bool.and_eq_true, decide_eq_true_eq,
          GRID_W, GRID_H] at hm ha hb ⊢
        split_ifs with hlt <;> constructor <;> omega
      exact GridWalk.cons ⟨d, hdm, rfl⟩ ⟨hstep.2, by simp⟩
        (ih (cellAdd a d) b hstep.1 hstep.2 hb)
    · push_neg at hx
      have hy : a.2 ≠ b.2 := by
        intro hy
        have : a = b := Prod.ext hx hy
        subst this
        simp [manhattan] at hm
      set d : Cell := if a.2 < b.2 then ((0 : ℤ), (1 : ℤ)) else (0, -1) with hd
      have hdm : d ∈ scanDirs := by
        rw [mem_scanDirs_iff, hd]
        split_ifs <;> simp
      have hstep : manhattan (cellAdd a d) b = n ∧ inBounds (cellAdd a d) = true := by
        rw [hd]
        simp only [manhattan, cellAdd, inBounds, Bool.and_eq_true, decide_eq_true_eq,
          GRID_W, GRID_H] at hm ha hb ⊢
        split_ifs with hlt <;> constructor <;> omega
      exact GridWalk.cons ⟨d, hdm, rfl⟩ ⟨hstep.2, by simp⟩
        (ih (cellAdd a d) b hstep.1 hstep.2 hb)

/-- A strictly smaller entry has a priority no larger. -/
theorem entryLtB_le {a b : AEntry} (h : entryLtB a b = true) : a.1 ≤ b.1 := by
  rw [entryLtB, Bool.or_eq_true, Bool.and_eq_true] at h
  rcases h with h | ⟨h, _⟩
  · exact le_of_lt (by simpa using h)
  · exact le_of_eq (by simpa using h)

/-- A non-smaller entry has a priority no smaller. -/
theorem entryLtB_not_le {a b : AEntry} (h : entryLtB a b = false) : b.1 ≤ a.1 := by
  rw [entryLtB] at h
  simp only [Bool.or_eq_false_iff, Bool.and_eq_false_iff, decide_eq_false_iff_not] at h
  exact le_of_not_lt h.1

/-- The minimum extraction: provided the current best already undercuts
everything scanned, the result is a permutation-preserving removal of an
entry with minimal priority. -/
theorem popMinAux_spec :
    ∀ (es : List AEntry) (best : AEntry) (seen : List AEntry),
      (∀ x ∈ seen, best.1 ≤ x.1) →
      ((popMinAux best seen es).1 :: (popMinAux best seen es).2).Perm
          (best :: (seen.reverse ++ es)) ∧
      (popMinAux best seen es).1.1 ≤ best.1 ∧
      (∀ x ∈ seen, (popMinAux best seen es).1.1 ≤ x.1) ∧
      (∀ x ∈ es, (popMinAux best seen es).1.1 ≤ x.1) := by
  intro es
  induction es with
  | nil =>
    intro best seen hpre
    exact ⟨by simp [popMinAux], le_refl _, hpre, by simp⟩
  | cons e es ih =>
    intro best seen hpre
    rw [popMinAux]
    split_ifs with hlt
    · have hle : e.1 ≤ best.1 := entryLtB_le hlt
      have hpre' : ∀ x ∈ best :: seen, e.1 ≤ x.1 := by
        intro x hx
        rcases List.mem_cons.mp hx with rfl | hx
        · exact hle
        · exact le_trans hle (hpre x hx)
      obtain ⟨hperm, hmin, hseen, hes⟩ := ih e (best :: seen) hpre'
      refine ⟨?_, hseen best (List.mem_cons_self best seen), ?_, ?_⟩
      · refine hperm.trans ?_
        have g1 : (best :: seen).reverse ++ es = seen.reverse ++ best :: es := by simp
        rw [g1]
        have p1 : (e :: (seen.reverse ++ best :: es)).Perm
            (e :: (best :: (seen.reverse ++ es))) := List.Perm.cons e List.perm_middle
        have p2 : (e :: best :: (seen.reverse ++ es)).Perm
            (best :: e :: (seen.reverse ++ es)) := List.Perm.swap best e _
        have p3 : (best :: e :: (seen.reverse ++ es)).Perm
            (best :: (seen.reverse ++ e :: es)) :=
          List.Perm.cons best List.perm_middle.symm
        exact (p1.trans p2).trans p3
      · intro x hx
        exact hseen x (List.mem_cons_of_mem best hx)
      · intro x hx
        rcases List.mem_cons.mp hx with rfl | hx
        · exact hmin
        · exact hes x hx
    · have hle : best.1 ≤ e.1 :=
        entryLtB_not_le (Bool.eq_false_iff.mpr hlt)
      have hpre' : ∀ x ∈ e :: seen, best.1 ≤ x.1 := by
        intro x hx
        rcases List.mem_cons.mp hx with rfl | hx
        · exact hle
        · exact hpre x hx
      obtain ⟨hperm, hmin, hseen, hes⟩ := ih best (e :: seen) hpre'
      refine ⟨?_, hmin, ?_, ?_⟩
      · refine hperm.trans ?_
        have g1 : (e :: seen).reverse ++ es = seen.reverse ++ e :: es := by simp
        rw [g1]
      · intro x hx
        exact hseen x (List.mem_cons_of_mem e hx)
      · intro x hx
        rcases List.mem_cons.mp hx with rfl | hx
        · exact hseen x (List.mem_cons_self x seen)
        · exact hes x hx

/-- Lookup after recording a binding, same key. -/
theorem lookupG_cons_self (gs : List (Cell × ℕ)) (k : Cell) (v : ℕ) :
    lookupG ((k, v) :: gs) k = some v := by
  simp [lookupG]

/-- Lookup after recording a binding, other key. -/
theorem lookupG_cons_ne (gs : List (Cell × ℕ)) (k x : Cell) (v : ℕ) (h : x ≠ k) :
    lookupG ((k, v) :: gs) x = lookupG gs x := by
  simp [lookupG, h]

/-- The scan directions are pairwise distinct. -/
theorem scanDirs_nodup : scanDirs.Nodup := by decide

/-- Neighbour expansion never touches `gscore` keys outside the scanned
neighbours. -/
theorem astarExpand_lookup_ne (hfun : Cell → ℚ) (c : Cell) (path : List Cell) :
    ∀ (ds : List Cell) (heap : List AEntry) (gs : List (Cell × ℕ)) (y : Cell),
      (∀ dd ∈ ds, y ≠ cellAdd c dd) →
      lookupG (astarExpand hfun ∅ c path ds (heap, gs)).2 y = lookupG gs y := by
  intro ds
  induction ds with
  | nil =>
    intro heap gs y _
    rfl
  | cons d ds ih =>
    intro heap gs y hy
    simp only [astarExpand]
    split_ifs with h1 h2
    · rw [ih _ _ y (fun dd hdd => hy dd (List.mem_cons_of_mem d hdd))]
      exact lookupG_cons_ne _ _ _ _ (hy d (List.mem_cons_self d ds))
    · exact ih _ _ y (fun dd hdd => hy dd (List.mem_cons_of_mem d hdd))
    · exact ih _ _ y (fun dd hdd => hy dd (List.mem_cons_of_mem d hdd))

/-- Neighbour expansion only adds heap entries, never removes one. -/
theorem astarExpand_heap_superset (hfun : Cell → ℚ) (c : Cell) (path : List Cell) :
    ∀ (ds : List Cell) (heap : List AEntry) (gs : List (Cell × ℕ)),
      ∀ x ∈ heap, x ∈ (astarExpand hfun ∅ c path ds (heap, gs)).1 := by
  intro ds
  induction ds with
  | nil =>
    intro heap gs x hx
    exact hx
  | cons d ds ih =>
    intro heap gs x hx
    simp only [astarExpand]
    split_ifs with h1 h2
    · exact ih _ _ x (List.mem_cons_of_mem _ hx)
    · exact ih _ _ x hx
    · exact ih _ _ x hx

/-- Neighbour expansion adds at most one entry per direction, and every
added entry is the canonical push for an in-bounds neighbour at tentative
cost `gE + 1`, where `gE` is the recorded cost of the expanded cell. -/
theorem astarExpand_heap_shape (hfun : Cell → ℚ) (c : Cell) (path : List Cell) :
    ∀ (ds : List Cell) (heap : List AEntry) (gs : List (Cell × ℕ)) (gE : ℕ),
      lookupG gs c = some gE →
      (∀ dd ∈ ds, cellAdd c dd ≠ c) →
      (astarExpand hfun ∅ c path ds (heap, gs)).1.length ≤ heap.length + ds.length ∧
      (∀ x ∈ (astarExpand hfun ∅ c path ds (heap, gs)).1,
        x ∈ heap ∨ ∃ dd ∈ ds, inBounds (cellAdd c dd) = true ∧
          x = (((gE + 1 : ℕ) : ℚ) + hfun (cellAdd c dd), cellAdd c dd,
            path ++ [cellAdd c dd])) := by
  intro ds
  induction ds with
  | nil =>
    intro heap gs gE _ _
    exact ⟨by simp [astarExpand], fun x hx => Or.inl hx⟩
  | cons d ds ih =>
    intro heap gs gE hcur hne
    simp only [astarExpand]
    rw [hcur]
    simp only [Option.getD_some]
    split_ifs with h1 h2
    · have hcur' : lookupG ((cellAdd c d, gE + 1) :: gs) c = some gE :=
        (lookupG_cons_ne _ _ _ _ (Ne.symm (hne d (List.mem_cons_self d ds)))).trans hcur
      obtain ⟨hlen, hshape⟩ :=
        ih ((((gE + 1 : ℕ) : ℚ) + hfun (cellAdd c d), cellAdd c d,
            path ++ [cellAdd c d]) :: heap)
          ((cellAdd c d, gE + 1) :: gs) gE hcur'
          (fun dd hdd => hne dd (List.mem_cons_of_mem d hdd))
      refine ⟨?_, ?_⟩
      · simp only [List.length_cons] at hlen ⊢
        omega
      · intro x hx
        rcases hshape x hx with hmem | ⟨dd, hdd, hb, hform⟩
        · rcases List.mem_cons.mp hmem with rfl | hmem'
          · exact Or.inr ⟨d, List.mem_cons_self d ds, h1.1, rfl⟩
          · exact Or.inl hmem'
        · exact Or.inr ⟨dd, List.mem_cons_of_mem d hdd, hb, hform⟩
    · obtain ⟨hlen, hshape⟩ := ih heap gs gE hcur
        (fun dd hdd => hne dd (List.mem_cons_of_mem d hdd))
      refine ⟨by simp only [List.length_cons]; omega, ?_⟩
      intro x hx
      rcases hshape x hx with hmem | ⟨dd, hdd, hb, hform⟩
      · exact Or.inl hmem
      · exact Or.inr ⟨dd, List.mem_cons_of_mem d hdd, hb, hform⟩
    · obtain ⟨hlen, hshape⟩ := ih heap gs gE hcur
        (fun dd hdd => hne dd (List.mem_cons_of_mem d hdd))
      refine ⟨by simp only [List.length_cons]; omega, ?_⟩
      intro x hx
      rcases hshape x hx with hmem | ⟨dd, hdd, hb, hform⟩
      · exact Or.inl hmem
      · exact Or.inr ⟨dd, List.mem_cons_of_mem d hdd, hb, hform⟩
/-- Neighbour expansion only lowers recorded `gscore` values, and never
changes a value already at most `gE + 1`. -/
theorem astarExpand_lookup_le (hfun : Cell → ℚ) (c : Cell) (path : List Cell) :
    ∀ (ds : List Cell) (heap : List AEntry) (gs : List (Cell × ℕ)) (gE : ℕ),
      lookupG gs c = some gE →
      (∀ dd ∈ ds, cellAdd c dd ≠ c) →
      ∀ y g, lookupG gs y = some g →
        ∃ g', lookupG (astarExpand hfun ∅ c path ds (heap, gs)).2 y = some g' ∧
          g' ≤ g ∧ (g ≤ gE + 1 → g' = g) := by
  intro ds
  induction ds with
  | nil =>
    intro heap gs gE _ _ y g hy
    exact ⟨g, hy, le_refl g, fun _ => rfl⟩
  | cons d ds ih =>
    intro heap gs gE hcur hne y g hy
    simp only [astarExpand]
    rw [hcur]
    simp only [Option.getD_some]
    split_ifs with h1 h2
    · have hcur' : lookupG ((cellAdd c d, gE + 1) :: gs) c = some gE :=
        (lookupG_cons_ne _ _ _ _ (Ne.symm (hne d (List.mem_cons_self d ds)))).trans hcur
      by_cases hyd : y = cellAdd c d
      · subst hyd
        rw [hy] at h2
        simp only [decide_eq_true_eq] at h2
        obtain ⟨g', hfin, hle, hcond⟩ :=
          ih ((((gE + 1 : ℕ) : ℚ) + hfun (cellAdd c d), cellAdd c d,
            path ++ [cellAdd c d]) :: heap) ((cellAdd c d, gE + 1) :: gs) gE hcur'
            (fun dd hdd => hne dd (List.mem_cons_of_mem d hdd)) (cellAdd c d) (gE + 1)
            (lookupG_cons_self gs (cellAdd c d) (gE + 1))
        have hg' : g' = gE + 1 := hcond (le_refl _)
        exact ⟨g', hfin, by omega, fun hgle => absurd h2 (by omega)⟩
      · obtain ⟨g', hfin, hle, hcond⟩ :=
          ih ((((gE + 1 : ℕ) : ℚ) + hfun (cellAdd c d), cellAdd c d,
            path ++ [cellAdd c d]) :: heap) ((cellAdd c d, gE + 1) :: gs) gE hcur'
            (fun dd hdd => hne dd (List.mem_cons_of_mem d hdd)) y g
            ((lookupG_cons_ne gs (cellAdd c d) y (gE + 1) hyd).trans hy)
        exact ⟨g', hfin, hle, hcond⟩
    · exact ih heap gs gE hcur (fun dd hdd => hne dd (List.mem_cons_of_mem d hdd)) y g hy
    · exact ih heap gs gE hcur (fun dd hdd => hne dd (List.mem_cons_of_mem d hdd)) y g hy

/-- Every `gscore` value present after neighbour expansion is either an old
value, or the fresh value `gE + 1` at an in-bounds cell whose canonical
entry is in the resulting heap. -/
theorem astarExpand_lookup_cases (hfun : Cell → ℚ) (c : Cell) (path : List Cell) :
    ∀ (ds : List Cell), ds.Nodup →
      ∀ (heap : List AEntry) (gs : List (Cell × ℕ)) (gE : ℕ),
        lookupG gs c = some gE →
        (∀ dd ∈ ds, cellAdd c dd ≠ c) →
        ∀ y g', lookupG (astarExpand hfun ∅ c path ds (heap, gs)).2 y = some g' →
          lookupG gs y = some g' ∨
            (g' = gE + 1 ∧ inBounds y = true ∧
              (((gE + 1 : ℕ) : ℚ) + hfun y, y, path ++ [y]) ∈
                (astarExpand hfun ∅ c path ds (heap, gs)).1) := by
  intro ds
  induction ds with
  | nil =>
    intro _ heap gs gE _ _ y g' hy
    exact Or.inl hy
  | cons d ds ih =>
    intro hnd heap gs gE hcur hne y g' hy
    obtain ⟨hdns, hnd'⟩ := List.nodup_cons.mp hnd
    simp only [astarExpand] at hy ⊢
    rw [hcur] at hy ⊢
    simp only [Option.getD_some] at hy ⊢
    split_ifs at hy ⊢ with h1 h2
    · have hcur' : lookupG ((cellAdd c d, gE + 1) :: gs) c = some gE :=
        (lookupG_cons_ne _ _ _ _ (Ne.symm (hne d (List.mem_cons_self d ds)))).trans hcur
      by_cases hyd : y = cellAdd c d
      · subst hyd
        have hfix : ∀ dd ∈ ds, cellAdd c d ≠ cellAdd c dd := by
          intro dd hdd heq
          exact hdns (by rw [cellAdd_inj c d dd heq]; exact hdd)
        have hfin := astarExpand_lookup_ne hfun c path ds
          ((((gE + 1 : ℕ) : ℚ) + hfun (cellAdd c d), cellAdd c d,
            path ++ [cellAdd c d]) :: heap)
          ((cellAdd c d, gE + 1) :: gs) (cellAdd c d) hfix
        rw [hfin, lookupG_cons_self] at hy
        refine Or.inr ⟨(Option.some.inj hy).symm, h1.1, ?_⟩
        exact astarExpand_heap_superset hfun c path ds _ _ _
          (List.mem_cons_self _ _)
      · rcases ih hnd' ((((gE + 1 : ℕ) : ℚ) + hfun (cellAdd c d), cellAdd c d,
            path ++ [cellAdd c d]) :: heap)
            ((cellAdd c d, gE + 1) :: gs) gE hcur'
            (fun dd hdd => hne dd (List.mem_cons_of_mem d hdd)) y g' hy with
          hold | ⟨hg', hb, hmem⟩
        · exact Or.inl ((lookupG_cons_ne gs (cellAdd c d) y (gE + 1) hyd).symm.trans hold)
        · exact Or.inr ⟨hg', hb, hmem⟩
    · exact ih hnd' heap gs gE hcur
        (fun dd hdd => hne dd (List.mem_cons_of_mem d hdd)) y g' hy
    · exact ih hnd' heap gs gE hcur
        (fun dd hdd => hne dd (List.mem_cons_of_mem d hdd)) y g' hy

/-- Every in-bounds scanned neighbour is covered after expansion: either
its canonical entry at cost `gE + 1` is in the heap, or its recorded
`gscore` was already at most `gE + 1`. -/
theorem astarExpand_cover (hfun : Cell → ℚ) (c : Cell) (path : List Cell) :
    ∀ (ds : List Cell), ds.Nodup →
      ∀ (heap : List AEntry) (gs : List (Cell × ℕ)) (gE : ℕ),
        lookupG gs c = some gE →
        (∀ dd ∈ ds, cellAdd c dd ≠ c) →
        ∀ dd ∈ ds, inBounds (cellAdd c dd) = true →
          ((((gE + 1 : ℕ) : ℚ) + hfun (cellAdd c dd), cellAdd c dd,
              path ++ [cellAdd c dd]) ∈ (astarExpand hfun ∅ c path ds (heap, gs)).1 ∧
            lookupG (astarExpand hfun ∅ c path ds (heap, gs)).2 (cellAdd c dd) =
              some (gE + 1)) ∨
            ∃ g, lookupG gs (cellAdd c dd) = some g ∧ g ≤ gE + 1 := by
  intro ds
  induction ds with
  | nil =>
    intro _ heap gs gE _ _ dd hdd _
    exact absurd hdd (List.not_mem_nil dd)
  | cons d ds ih =>
    intro hnd heap gs gE hcur hne dd hdd hb
    obtain ⟨hdns, hnd'⟩ := List.nodup_cons.mp hnd
    simp only [astarExpand]
    rw [hcur]
    simp only [Option.getD_some]
    rcases List.mem_cons.mp hdd with rfl | hdd'
    · split_ifs with h1 h2
      · refine Or.inl ⟨astarExpand_heap_superset hfun c path ds _ _ _
          (List.mem_cons_self _ _), ?_⟩
        have hfix : ∀ x ∈ ds, cellAdd c dd ≠ cellAdd c x := by
          intro x hx heq
          exact hdns (by rw [cellAdd_inj c dd x heq]; exact hx)
        rw [astarExpand_lookup_ne hfun c path ds
          ((((gE + 1 : ℕ) : ℚ) + hfun (cellAdd c dd), cellAdd c dd,
            path ++ [cellAdd c dd]) :: heap)
          ((cellAdd c dd, gE + 1) :: gs) (cellAdd c dd) hfix]
        exact lookupG_cons_self gs (cellAdd c dd) (gE + 1)
      · rcases hnt : lookupG gs (cellAdd c dd) with _ | gOld
        · rw [hnt] at h2
          simp at h2
        · rw [hnt] at h2
          simp only [decide_eq_true_eq] at h2
          exact Or.inr ⟨gOld, rfl, by omega⟩
      · exact absurd ⟨hb, Finset.not_mem_empty _⟩ h1
    · split_ifs with h1 h2
      · have hcur' : lookupG ((cellAdd c d, gE + 1) :: gs) c = some gE :=
          (lookupG_cons_ne _ _ _ _ (Ne.symm (hne d (List.mem_cons_self d ds)))).trans hcur
        rcases ih hnd' ((((gE + 1 : ℕ) : ℚ) + hfun (cellAdd c d), cellAdd c d,
            path ++ [cellAdd c d]) :: heap)
            ((cellAdd c d, gE + 1) :: gs) gE hcur'
            (fun x hx => hne x (List.mem_cons_of_mem d hx)) dd hdd' hb with
          hmem | ⟨g, hg, hgle⟩
        · exact Or.inl hmem
        · have hney : cellAdd c dd ≠ cellAdd c d := by
            intro heq
            exact hdns (by rw [← cellAdd_inj c dd d heq]; exact hdd')
          exact Or.inr ⟨g, (lookupG_cons_ne gs (cellAdd c d) (cellAdd c dd)
            (gE + 1) hney).symm.trans hg, hgle⟩
      · exact ih hnd' heap gs gE hcur
          (fun x hx => hne x (List.mem_cons_of_mem d hx)) dd hdd' hb
      · exact ih hnd' heap gs gE hcur
          (fun x hx => hne x (List.mem_cons_of_mem d hx)) dd hdd' hb
/-- The head of a list is unchanged by appending, when the list is
nonempty. -/
theorem headI_append_ne_nil {l : List Cell} (h : l ≠ []) (c : Cell) :
    (l ++ [c]).headI = l.headI := by
  cases l with
  | nil => exact absurd rfl h
  | cons a as => rfl

/-- A walk of positive length splits off its last step. -/
theorem GridWalk.snoc_decomp :
    ∀ {a c : Cell} {n : ℕ}, GridWalk ∅ a c (n + 1) →
      ∃ b, GridWalk ∅ a b n ∧ adjCell b c ∧ freeCell ∅ c := by
  intro a c n
  induction n generalizing a with
  | zero =>
    intro h
    cases h with
    | cons hadj hfree htail =>
      cases htail
      exact ⟨a, GridWalk.nil a, hadj, hfree⟩
  | succ n ih =>
    intro h
    cases h with
    | cons hadj hfree htail =>
      obtain ⟨b', hw, hadj', hfree'⟩ := ih htail
      exact ⟨b', GridWalk.cons hadj hfree hw, hadj', hfree'⟩

/-- The invariant holds for `_astar`'s initial state: one entry for the
start at zero steps, one `gscore` binding, nothing closed. -/
theorem AInv_initial (start : Cell) (hfun : Cell → ℚ)
    (hstart : inBounds start = true) :
    AInv start hfun [(hfun start, start, [start])] [(start, 0)] ∅ := by
  refine ⟨?_, ?_, ?_, ?_, ?_, ?_, ?_⟩
  · intro e he
    rw [List.mem_singleton] at he
    subst he
    exact ⟨rfl, rfl, rfl, GridWalk.nil start, by simp [entryG]⟩
  · intro c hc
    exact absurd hc (Finset.not_mem_empty c)
  · exact Or.inr ⟨(hfun start, start, [start]), List.mem_singleton_self _, rfl, rfl⟩
  · intro c hc
    exact absurd hc (Finset.not_mem_empty c)
  · intro c _ g hg
    rw [lookupG] at hg
    split_ifs at hg with hc
    · subst hc
      refine ⟨(hfun c, c, [c]), List.mem_singleton_self _, rfl, ?_⟩
      have hg0 : g = 0 := (Option.some.inj hg).symm
      simp [entryG, hg0]
    · rw [lookupG] at hg
      exact Option.noConfusion hg
  · intro e he
    rw [List.mem_singleton] at he
    subst he
    exact ⟨0, by rw [lookupG]; simp, by simp [entryG]⟩
  · intro c hc
    exact absurd hc (Finset.not_mem_empty c)
/-- Coverage: along any admissible walk from the start, either the
endpoint is already settled within the walk's length, or some live entry
sits on the walk with its remaining distance accounted for. -/
theorem cover_aux (start : Cell) (hfun : Cell → ℚ) :
    ∀ (k : ℕ) (heap : List AEntry) (gs : List (Cell × ℕ)) (closed : Finset Cell),
      AInv start hfun heap gs closed →
      ∀ y, GridWalk ∅ start y k →
        (y ∈ closed ∧ ∃ gy, lookupG gs y = some gy ∧ gy ≤ k) ∨
        (∃ e ∈ heap, ∃ i, GridWalk ∅ e.2.1 y i ∧ entryG e + i ≤ k) := by
  intro k
  induction k with
  | zero =>
    intro heap gs closed inv y hw
    cases hw
    rcases inv.startm with hs | ⟨e, he, hcell, hg⟩
    · obtain ⟨gc, hgc, hdist⟩ := inv.settled start hs
      have hgc0 : gc = 0 :=
        Nat.le_antisymm (hdist.2 0 (GridWalk.nil start)) (Nat.zero_le gc)
      exact Or.inl ⟨hs, gc, hgc, by omega⟩
    · exact Or.inr ⟨e, he, 0, by rw [hcell]; exact GridWalk.nil start, by omega⟩
  | succ k ih =>
    intro heap gs closed inv y hw
    obtain ⟨b, hwb, hadj, hfree⟩ := GridWalk.snoc_decomp hw
    rcases ih heap gs closed inv b hwb with ⟨hbc, gb, hgb, hgbk⟩ | ⟨e, he, i, hwi, hik⟩
    · by_cases hyc : y ∈ closed
      · obtain ⟨gy, hgy, hdy⟩ := inv.settled y hyc
        exact Or.inl ⟨hyc, gy, hgy, hdy.2 _ hw⟩
      · obtain ⟨d, hd, rfl⟩ := hadj
        obtain ⟨e, he, hcell, hge⟩ := inv.frontier b hbc gb hgb d hd hfree.1 hyc
        refine Or.inr ⟨e, he, 0, by rw [hcell]; exact GridWalk.nil _, by omega⟩
    · exact Or.inr ⟨e, he, i + 1, GridWalk.snoc hwi hadj hfree.1, by omega⟩

/-- When the popped entry is minimal and its cell is unclosed, its step
count is both the recorded `gscore` of its cell and the true shortest
distance (sync and settle). -/
theorem popped_min_settles (start : Cell) (hfun : Cell → ℚ)
    (hcons : ∀ a b : Cell, adjCell a b → inBounds b = true → hfun a ≤ 1 + hfun b)
    (heap : List AEntry) (gs : List (Cell × ℕ)) (closed : Finset Cell)
    (inv : AInv start hfun heap gs closed) (m : AEntry)
    (hm : m ∈ heap) (hmin : ∀ x ∈ heap, m.1 ≤ x.1) (hmc : m.2.1 ∉ closed) :
    lookupG gs m.2.1 = some (entryG m) ∧ IsDist start m.2.1 (entryG m) := by
  have einv := inv.entries m hm
  obtain ⟨g, hg, hgle⟩ := inv.gsdef m hm
  have hsync : g = entryG m := by
    by_contra hne
    have hlt : g < entryG m := lt_of_le_of_ne hgle hne
    obtain ⟨e', he', hcell', hge'⟩ := inv.gslive m.2.1 hmc g hg
    have hkey' := (inv.entries e' he').key
    have hkeym := einv.key
    have hm' := hmin e' he'
    rw [hkeym, hkey', hcell', hge'] at hm'
    have : (entryG m : ℚ) ≤ (g : ℚ) := by linarith
    have : entryG m ≤ g := by exact_mod_cast this
    omega
  subst hsync
  refine ⟨hg, einv.walk, ?_⟩
  intro kk hwk
  rcases cover_aux start hfun kk heap gs closed inv m.2.1 hwk with
    ⟨hclosed, _⟩ | ⟨e, he, i, hwi, hik⟩
  · exact absurd hclosed hmc
  · have htel := heuristic_telescope hfun hcons hwi
    have hkey' := (inv.entries e he).key
    have hkeym := einv.key
    have hm' := hmin e he
    rw [hkeym, hkey'] at hm'
    have hq : (entryG m : ℚ) ≤ (entryG e : ℚ) + (i : ℚ) := by linarith
    have : entryG m ≤ entryG e + i := by exact_mod_cast hq
    omega

/-- Popping an already-closed cell preserves the invariant with the rest
of the heap. -/
theorem AInv_skip (start : Cell) (hfun : Cell → ℚ) {heap p2 : List AEntry}
    {m : AEntry} {gs : List (Cell × ℕ)} {closed : Finset Cell}
    (inv : AInv start hfun heap gs closed)
    (hperm : (m :: p2).Perm heap) (hmc : m.2.1 ∈ closed) :
    AInv start hfun p2 gs closed := by
  have hsub : ∀ x ∈ p2, x ∈ heap := fun x hx =>
    hperm.mem_iff.mp (List.mem_cons_of_mem m hx)
  refine ⟨?_, inv.settled, ?_, ?_, ?_, ?_, inv.closedb⟩
  · intro e he
    exact inv.entries e (hsub e he)
  · rcases inv.startm with hs | ⟨e, he, hcell, hg⟩
    · exact Or.inl hs
    · rcases List.mem_cons.mp (hperm.mem_iff.mpr he) with rfl | hep
      · exact Or.inl (hcell ▸ hmc)
      · exact Or.inr ⟨e, hep, hcell, hg⟩
  · intro c hc gc hgc dd hdd hb hnin
    obtain ⟨e, he, hcell, hge⟩ := inv.frontier c hc gc hgc dd hdd hb hnin
    rcases List.mem_cons.mp (hperm.mem_iff.mpr he) with rfl | hep
    · exact absurd (hcell ▸ hmc) hnin
    · exact ⟨e, hep, hcell, hge⟩
  · intro c hcn g hg
    obtain ⟨e, he, hcell, hge⟩ := inv.gslive c hcn g hg
    rcases List.mem_cons.mp (hperm.mem_iff.mpr he) with rfl | hep
    · exact absurd (hcell ▸ hmc) hcn
    · exact ⟨e, hep, hcell, hge⟩
  · intro e he
    exact inv.gsdef e (hsub e he)
/-- Expanding the popped minimum preserves the invariant, with its cell
newly closed. -/
theorem AInv_expand (start : Cell) (hfun : Cell → ℚ)
    (hcons : ∀ a b : Cell, adjCell a b → inBounds b = true → hfun a ≤ 1 + hfun b)
    (hstart : inBounds start = true)
    {heap p2 : List AEntry} {m : AEntry} {gs : List (Cell × ℕ)} {closed : Finset Cell}
    (inv : AInv start hfun heap gs closed)
    (hperm : (m :: p2).Perm heap)
    (hmin : ∀ x ∈ heap, m.1 ≤ x.1)
    (hmc : m.2.1 ∉ closed) :
    AInv start hfun (astarExpand hfun ∅ m.2.1 m.2.2 scanDirs (p2, gs)).1
      (astarExpand hfun ∅ m.2.1 m.2.2 scanDirs (p2, gs)).2
      (insert m.2.1 closed) := by
  have hm : m ∈ heap := hperm.mem_iff.mp (List.mem_cons_self m p2)
  have einv := inv.entries m hm
  have hlen := einv.len
  obtain ⟨gsu, hdist⟩ :=
    popped_min_settles start hfun hcons heap gs closed inv m hm hmin hmc
  have hne : ∀ dd ∈ scanDirs, cellAdd m.2.1 dd ≠ m.2.1 :=
    fun dd h => cellAdd_ne_self _ dd h
  have hub : inBounds m.2.1 = true := GridWalk.inBounds_right einv.walk hstart
  have hsub : ∀ x ∈ p2, x ∈ heap := fun x hx =>
    hperm.mem_iff.mp (List.mem_cons_of_mem m hx)
  have hmemP2 : ∀ e' ∈ heap, e'.2.1 ≠ m.2.1 → e' ∈ p2 := by
    intro e' he' hnem
    rcases List.mem_cons.mp (hperm.mem_iff.mpr he') with rfl | h2
    · exact absurd rfl hnem
    · exact h2
  have hEG : ∀ (q : ℚ) (nt : Cell), entryG (q, nt, m.2.2 ++ [nt]) = entryG m + 1 := by
    intro q nt
    show (m.2.2 ++ [nt]).length - 1 = entryG m + 1
    rw [List.length_append, hlen]
    rfl
  have hpne : m.2.2 ≠ [] := by
    intro h
    rw [h] at hlen
    simp at hlen
  have hpres_u :
      lookupG (astarExpand hfun ∅ m.2.1 m.2.2 scanDirs (p2, gs)).2 m.2.1 =
        some (entryG m) := by
    rw [astarExpand_lookup_ne hfun m.2.1 m.2.2 scanDirs p2 gs m.2.1
      (fun dd hdd => (hne dd hdd).symm)]
    exact gsu
  have hkeep : ∀ c ∈ closed, ∀ gc, lookupG gs c = some gc →
      lookupG (astarExpand hfun ∅ m.2.1 m.2.2 scanDirs (p2, gs)).2 c = some gc := by
    intro c hc gc hgc
    by_cases hnb : ∀ dd ∈ scanDirs, c ≠ cellAdd m.2.1 dd
    · rw [astarExpand_lookup_ne hfun m.2.1 m.2.2 scanDirs p2 gs c hnb]
      exact hgc
    · push_neg at hnb
      obtain ⟨dd, hdd, heq⟩ := hnb
      obtain ⟨gc', hgc', hdc⟩ := inv.settled c hc
      have hgg : gc' = gc := Option.some.inj (hgc'.symm.trans hgc)
      subst hgg
      have hcb : inBounds c = true := inv.closedb c hc
      have hwalk : GridWalk ∅ start c (entryG m + 1) := by
        rw [heq]
        exact GridWalk.snoc hdist.1 ⟨dd, hdd, rfl⟩ (heq ▸ hcb)
      have hle : gc' ≤ entryG m + 1 := hdc.2 _ hwalk
      obtain ⟨g', hg', hle', hcond⟩ := astarExpand_lookup_le hfun m.2.1 m.2.2
        scanDirs p2 gs (entryG m) gsu hne c gc' hgc
      rw [hcond hle] at hg'
      exact hg'
  refine ⟨?_, ?_, ?_, ?_, ?_, ?_, ?_⟩
  · -- entries
    intro x hx
    rcases (astarExpand_heap_shape hfun m.2.1 m.2.2 scanDirs p2 gs (entryG m)
        gsu hne).2 x hx with hmem | ⟨dd, hdd, hb, rfl⟩
    · exact inv.entries x (hsub x hmem)
    · refine ⟨?_, ?_, ?_, ?_, ?_⟩
      · rw [hEG, List.length_append, hlen]
        rfl
      · show (m.2.2 ++ [cellAdd m.2.1 dd]).headI = start
        rw [headI_append_ne_nil hpne]
        exact einv.head
      · show (m.2.2 ++ [cellAdd m.2.1 dd]).getLast? = some (cellAdd m.2.1 dd)
        simp
      · show GridWalk ∅ start (cellAdd m.2.1 dd) (entryG _)
        rw [hEG]
        exact GridWalk.snoc einv.walk ⟨dd, hdd, rfl⟩ hb
      · show _ = (_ : ℚ) + hfun (cellAdd m.2.1 dd)
        rw [hEG]
  · -- settled
    intro c hc
    rcases Finset.mem_insert.mp hc with rfl | hcold
    · exact ⟨entryG m, hpres_u, hdist⟩
    · obtain ⟨gc, hgc, hdc⟩ := inv.settled c hcold
      exact ⟨gc, hkeep c hcold gc hgc, hdc⟩
  · -- startm
    rcases inv.startm with hs | ⟨e, he, hcell, hg⟩
    · exact Or.inl (Finset.mem_insert_of_mem hs)
    · rcases List.mem_cons.mp (hperm.mem_iff.mpr he) with rfl | hep
      · exact Or.inl (hcell ▸ Finset.mem_insert_self _ _)
      · exact Or.inr ⟨e, astarExpand_heap_superset hfun m.2.1 m.2.2 scanDirs
          p2 gs e hep, hcell, hg⟩
  · -- frontier
    intro c hc gc hgc dd hdd hb hnin
    have hnc : cellAdd c dd ∉ closed := fun h => hnin (Finset.mem_insert_of_mem h)
    have hnu : cellAdd c dd ≠ m.2.1 := fun h => hnin (h ▸ Finset.mem_insert_self _ _)
    rcases Finset.mem_insert.mp hc with rfl | hcold
    · have hgceq : gc = entryG m := Option.some.inj (hpres_u.symm.trans hgc).symm
      rcases astarExpand_cover hfun m.2.1 m.2.2 scanDirs scanDirs_nodup p2 gs
          (entryG m) gsu hne dd hdd hb with ⟨hmem, _⟩ | ⟨g, hg, hgle⟩
      · refine ⟨(((entryG m + 1 : ℕ) : ℚ) + hfun (cellAdd m.2.1 dd),
          cellAdd m.2.1 dd, m.2.2 ++ [cellAdd m.2.1 dd]), hmem, rfl, ?_⟩
        rw [hEG, hgceq]
      · obtain ⟨e', he', hcell', hge'⟩ := inv.gslive _ hnc g hg
        refine ⟨e', astarExpand_heap_superset hfun m.2.1 m.2.2 scanDirs p2 gs e'
          (hmemP2 e' he' (by rw [hcell']; exact hnu)), hcell', by omega⟩
    · obtain ⟨gc₀, hgc₀, hdc⟩ := inv.settled c hcold
      have hk := hkeep c hcold gc₀ hgc₀
      have hgceq : gc = gc₀ := Option.some.inj (hk.symm.trans hgc).symm
      obtain ⟨e', he', hcell', hge'⟩ := inv.frontier c hcold gc₀ hgc₀ dd hdd hb hnc
      refine ⟨e', astarExpand_heap_superset hfun m.2.1 m.2.2 scanDirs p2 gs e'
        (hmemP2 e' he' (by rw [hcell']; exact hnu)), hcell', by omega⟩
  · -- gslive
    intro c hcin g hg
    have hcu : c ≠ m.2.1 := fun h => hcin (h ▸ Finset.mem_insert_self _ _)
    have hcold : c ∉ closed := fun h => hcin (Finset.mem_insert_of_mem h)
    rcases astarExpand_lookup_cases hfun m.2.1 m.2.2 scanDirs scanDirs_nodup
        p2 gs (entryG m) gsu hne c g hg with hold | ⟨rfl, hb, hmem⟩
    · obtain ⟨e', he', hcell', hge'⟩ := inv.gslive c hcold g hold
      exact ⟨e', astarExpand_heap_superset hfun m.2.1 m.2.2 scanDirs p2 gs e'
        (hmemP2 e' he' (by rw [hcell']; exact hcu)), hcell', hge'⟩
    · exact ⟨(((entryG m + 1 : ℕ) : ℚ) + hfun c, c, m.2.2 ++ [c]), hmem, rfl,
        hEG _ _⟩
  · -- gsdef
    intro e he
    rcases (astarExpand_heap_shape hfun m.2.1 m.2.2 scanDirs p2 gs (entryG m)
        gsu hne).2 e he with hmem | ⟨dd, hdd, hb, rfl⟩
    · obtain ⟨g, hg, hge⟩ := inv.gsdef e (hsub e hmem)
      obtain ⟨g', hg', hle', _⟩ := astarExpand_lookup_le hfun m.2.1 m.2.2
        scanDirs p2 gs (entryG m) gsu hne e.2.1 g hg
      exact ⟨g', hg', le_trans hle' hge⟩
    · rcases astarExpand_cover hfun m.2.1 m.2.2 scanDirs scanDirs_nodup p2 gs
          (entryG m) gsu hne dd hdd hb with ⟨_, hlook⟩ | ⟨g, hg, hgle⟩
      · exact ⟨entryG m + 1, hlook, by rw [hEG]⟩
      · obtain ⟨g', hg', hle', hcond⟩ := astarExpand_lookup_le hfun m.2.1 m.2.2
          scanDirs p2 gs (entryG m) gsu hne (cellAdd m.2.1 dd) g hg
        rw [hcond hgle] at hg'
        exact ⟨g, hg', by rw [hEG]; omega⟩
  · -- closedb
    intro c hc
    rcases Finset.mem_insert.mp hc with rfl | hcold
    · exact hub
    · exact inv.closedb c hcold
/-- The A* loop, run from any state satisfying the invariant with the
target unclosed and enough fuel for the measure, returns a path of exactly
the shortest (Manhattan) length from start to target. -/
theorem astarLoop_correct (start target : Cell) (hfun : Cell → ℚ)
    (hcons : ∀ a b : Cell, adjCell a b → inBounds b = true → hfun a ≤ 1 + hfun b)
    (hstart : inBounds start = true) (htarget : inBounds target = true) :
    ∀ (fuel : ℕ) (heap : List AEntry) (gs : List (Cell × ℕ)) (closed : Finset Cell),
      AInv start hfun heap gs closed →
      target ∉ closed →
      heap.length + 4 * (1200 - closed.card) < fuel →
      (astarLoop target hfun ∅ fuel heap gs closed).length =
          manhattan start target + 1 ∧
        (astarLoop target hfun ∅ fuel heap gs closed).headI = start ∧
        (astarLoop target hfun ∅ fuel heap gs closed).getLast? = some target := by
  intro fuel
  induction fuel with
  | zero =>
    intro heap gs closed _ _ hfuel
    exact absurd hfuel (Nat.not_lt_zero _)
  | succ fuel ih =>
    intro heap gs closed inv htc hfuel
    cases heap with
    | nil =>
      exfalso
      have hw : GridWalk ∅ start target (manhattan start target) :=
        walk_of_manhattan _ _ _ rfl hstart htarget
      rcases cover_aux start hfun (manhattan start target) [] gs closed inv
          target hw with ⟨hcl, _⟩ | ⟨e, he, _⟩
      · exact htc hcl
      · exact absurd he (List.not_mem_nil e)
    | cons e rest =>
      have hspec := popMinAux_spec rest e []
        (fun x hx => absurd hx (List.not_mem_nil x))
      have hperm : ((popMinAux e [] rest).1 :: (popMinAux e [] rest).2).Perm
          (e :: rest) := by simpa using hspec.1
      have hm : (popMinAux e [] rest).1 ∈ e :: rest :=
        hperm.mem_iff.mp (List.mem_cons_self _ _)
      have hmin : ∀ x ∈ e :: rest, (popMinAux e [] rest).1.1 ≤ x.1 := by
        intro x hx
        rcases List.mem_cons.mp hx with rfl | hx'
        · exact hspec.2.1
        · exact hspec.2.2.2 x hx'
      simp only [astarLoop]
      split_ifs with ht hcl
      · obtain ⟨gsu, hdist⟩ := popped_min_settles start hfun hcons (e :: rest)
          gs closed inv _ hm hmin (by rw [ht]; exact htc)
        have einv := inv.entries _ hm
        have hdm : IsDist start target (manhattan start target) :=
          ⟨walk_of_manhattan _ _ _ rfl hstart htarget,
            fun mm hw => manhattan_le_walk hw⟩
        rw [ht] at hdist
        have heq : entryG (popMinAux e [] rest).1 = manhattan start target :=
          IsDist.unique hdist hdm
        refine ⟨?_, einv.head, ?_⟩
        · rw [einv.len, heq]
        · rw [einv.last, ht]
      · have hfuel' : (popMinAux e [] rest).2.length + 4 * (1200 - closed.card)
            < fuel := by
          have hl := hperm.length_eq
          simp only [List.length_cons] at hl hfuel
          omega
        exact ih (popMinAux e [] rest).2 gs closed
          (AInv_skip start hfun inv hperm hcl) htc hfuel'
      · obtain ⟨gsu, hdist⟩ := popped_min_settles start hfun hcons (e :: rest)
          gs closed inv _ hm hmin hcl
        have inv' := AInv_expand start hfun hcons hstart inv hperm hmin hcl
        have hne : ∀ dd ∈ scanDirs,
            cellAdd (popMinAux e [] rest).1.2.1 dd ≠ (popMinAux e [] rest).1.2.1 :=
          fun dd h => cellAdd_ne_self _ dd h
        have hshape := (astarExpand_heap_shape hfun (popMinAux e [] rest).1.2.1
          (popMinAux e [] rest).1.2.2 scanDirs (popMinAux e [] rest).2 gs
          (entryG (popMinAux e [] rest).1) gsu hne).1
        have hcard : (insert (popMinAux e [] rest).1.2.1 closed).card ≤ 1200 := by
          calc (insert (popMinAux e [] rest).1.2.1 closed).card
              ≤ gridCells.card := Finset.card_le_card
                (fun c hcm => (mem_gridCells c).mpr (inv'.closedb c hcm))
            _ = 1200 := gridCells_card
        have hcardi : (insert (popMinAux e [] rest).1.2.1 closed).card =
            closed.card + 1 := Finset.card_insert_of_not_mem hcl
        have h4 : scanDirs.length = 4 := rfl
        have hfuel' : (astarExpand hfun ∅ (popMinAux e [] rest).1.2.1
            (popMinAux e [] rest).1.2.2 scanDirs ((popMinAux e [] rest).2, gs)).1.length
            + 4 * (1200 - (insert (popMinAux e [] rest).1.2.1 closed).card)
            < fuel := by
          have hl := hperm.length_eq
          rw [h4] at hshape
          simp only [List.length_cons] at hl hfuel
          omega
        have htc' : target ∉ insert (popMinAux e [] rest).1.2.1 closed := by
          rw [Finset.mem_insert]
          push_neg
          exact ⟨fun h => ht h.symm, htc⟩
        exact ih _ _ _ inv' htc' hfuel'
/-- C7: on the obstacle-free grid, for any heuristic that changes by at
most one along a grid edge (as the code's Euclidean `get_distance`
heuristic does), and any node budget beyond `4801`, `_astar` called with
an empty obstacle set returns a path whose step count is exactly the
Manhattan distance between start and target: the returned list has
`manhattan start target + 1` cells, begins at the start cell, and ends at
the target. -/
theorem astar_open_grid_optimal (hfun : Cell → ℚ) (start target : Cell)
    (fuel : ℕ)
    (hcons : ∀ a b : Cell, adjCell a b → inBounds b = true → hfun a ≤ 1 + hfun b)
    (hstart : inBounds start = true) (htarget : inBounds target = true)
    (hfuel : 4801 < fuel) :
    (astar hfun start target ∅ fuel).length = manhattan start target + 1 ∧
      (astar hfun start target ∅ fuel).headI = start ∧
      (astar hfun start target ∅ fuel).getLast? = some target := by
  have h := astarLoop_correct start target hfun hcons hstart htarget fuel
    [(hfun start, start, [start])] [(start, 0)] ∅
    (AInv_initial start hfun hstart) (Finset.not_mem_empty target)
    (by simp only [List.length_singleton, Finset.card_empty]; omega)
  exact h

/-- Witness for the A* theorem: the zero heuristic is consistent, the
cells `(0,0)` and `(1,0)` are in bounds, the budget `4802` clears the
bound, and the theorem yields the two-cell path facts. -/
theorem astar_open_grid_optimal_witness :
    (∀ a b : Cell, adjCell a b → inBounds b = true →
      (fun _ : Cell => (0 : ℚ)) a ≤ 1 + (fun _ : Cell => (0 : ℚ)) b) ∧
    inBounds ((0 : ℤ), (0 : ℤ)) = true ∧ inBounds ((1 : ℤ), (0 : ℤ)) = true ∧
    4801 < 4802 ∧
    ((astar (fun _ => (0 : ℚ)) ((0 : ℤ), (0 : ℤ)) ((1 : ℤ), (0 : ℤ)) ∅
        4802).length =
        manhattan ((0 : ℤ), (0 : ℤ)) ((1 : ℤ), (0 : ℤ)) + 1 ∧
      (astar (fun _ => (0 : ℚ)) ((0 : ℤ), (0 : ℤ)) ((1 : ℤ), (0 : ℤ)) ∅
        4802).headI = ((0 : ℤ), (0 : ℤ)) ∧
      (astar (fun _ => (0 : ℚ)) ((0 : ℤ), (0 : ℤ)) ((1 : ℤ), (0 : ℤ)) ∅
        4802).getLast? = some ((1 : ℤ), (0 : ℤ))) :=
  ⟨fun a b _ _ => by norm_num, by decide, by decide, by decide,
    astar_open_grid_optimal (fun _ => 0) ((0 : ℤ), (0 : ℤ)) ((1 : ℤ), (0 : ℤ))
      4802 (fun a b _ _ => by norm_num) (by decide) (by decide) (by decide)⟩
